import Mathlib

/-!
Shallow embedding of the streaming RPC engine of `solfees-be`
(`src/solfees-be/src/rpc_solana.rs`), for checking the natural-language
specification against the code.

Modelling conventions:
* `Slot`, block heights, hashes and public keys are modelled as `Nat`
  (the code never computes with the bytes of a hash or pubkey, it only
  compares and copies them, so any type with decidable equality and a
  linear order for pubkey sorting works).
* Rust `BTreeMap<u64, V>` is modelled as an association list
  `List (Nat × V)` kept sorted by strictly increasing key; `mapInsert`,
  `mapLookup`, `List.tail` (for `pop_first`) mirror the BTreeMap
  operations used by the code.
* `u64`/`usize` arithmetic is modelled with `Nat`: the only subtractions
  are guarded (`slot -= 1` inside the rollback walk, modelled by
  structural recursion on the slot number; the `slot = 0` case models the
  release-mode wrap-around of `0u64 - 1`, whose lookup misses every store
  that does not contain the key `u64::MAX`), and no addition in the code
  can overflow for realistic inputs, so no `% 2^64` is needed for the
  claims at hand.
* `f64` (`fee_average`) is not modelled; no claim mentions it.
* Channels, JSON (de)serialization and the socket machinery are external
  collaborators; the functions below are the pure per-event / per-request
  bodies that the tasks execute.
-/

namespace Solfees

/-- `solana_sdk::clock::MAX_RECENT_BLOCKHASHES` (= 300) as used by the code. -/
def MAX_RECENT_BLOCKHASHES : Nat := 300

/-- `const MAX_NUM_RECENT_SLOT_INFO: usize = 150` (rpc_solana.rs line 51). -/
def MAX_NUM_RECENT_SLOT_INFO : Nat := 150

/-- `solana_sdk::transaction::MAX_TX_ACCOUNT_LOCKS` (= 64). -/
def MAX_TX_ACCOUNT_LOCKS : Nat := 64

/-- `CommitmentLevel` from `grpc_geyser`: Processed < Confirmed < Finalized. -/
inductive CommitmentLevel where
  | Processed
  | Confirmed
  | Finalized
deriving DecidableEq, Repr

/-- Lookup in a `BTreeMap<u64, V>` modelled as an association list:
`slots.get(&k)`. -/
def mapLookup (k : Nat) : List (Nat × α) → Option α
  | [] => none
  | (k', v) :: rest => if k = k' then some v else mapLookup k rest

/-- Insert (or overwrite) in a `BTreeMap<u64, V>` modelled as a sorted
association list: `map.insert(k, v)`. -/
def mapInsert (k : Nat) (v : α) : List (Nat × α) → List (Nat × α)
  | [] => [(k, v)]
  | (k', v') :: rest =>
      if k < k' then (k, v) :: (k', v') :: rest
      else if k = k' then (k, v) :: rest
      else (k', v') :: mapInsert k v rest

/-- Keys of the modelled map, in storage order. -/
def mapKeys (l : List (Nat × α)) : List Nat := l.map Prod.fst

/-- Well-formedness of the `BTreeMap` model: keys strictly increase. -/
abbrev MapWF (l : List (Nat × α)) : Prop := (mapKeys l).Sorted (· < ·)

/-- `LatestBlockhashSlot` (rpc_solana.rs lines 772-777). -/
structure LatestBlockhashSlot where
  hash : Nat
  height : Nat
  commitment : CommitmentLevel
deriving DecidableEq, Repr

/-- `LatestBlockhashStorage` (rpc_solana.rs lines 727-734). -/
structure LatestBlockhashStorage where
  slots : List (Nat × LatestBlockhashSlot) := []
  finalized_total : Nat := 0
  slot_processed : Nat := 0
  slot_confirmed : Nat := 0
  slot_finalized : Nat := 0
deriving DecidableEq, Repr

/-- The cached latest slot for a commitment level (the `match commitment`
blocks at rpc_solana.rs lines 581-585 and 632-636). -/
def LatestBlockhashStorage.latestSlot (st : LatestBlockhashStorage) :
    CommitmentLevel → Nat
  | .Processed => st.slot_processed
  | .Confirmed => st.slot_confirmed
  | .Finalized => st.slot_finalized

/-- Number of entries of the map whose commitment is `Finalized`. -/
def countFinalized (l : List (Nat × LatestBlockhashSlot)) : Nat :=
  (l.filter (fun p => p.2.commitment = CommitmentLevel.Finalized)).length

/-- The eviction loop of `update_commitment` (rpc_solana.rs lines 762-768):
`while finalized_total > MAX_RECENT_BLOCKHASHES + 10 { pop_first ... }`.
The source loops forever if the map empties with the counter still above
the bound; that state is unreachable when the counter counts the finalized
entries, and the model returns the state unchanged there. -/
def evictLoop : List (Nat × LatestBlockhashSlot) → Nat →
    List (Nat × LatestBlockhashSlot) × Nat
  | [], ft => ([], ft)
  | (k, v) :: rest, ft =>
      if ft > MAX_RECENT_BLOCKHASHES + 10 then
        evictLoop rest
          (if v.commitment = CommitmentLevel.Finalized then ft - 1 else ft)
      else ((k, v) :: rest, ft)

/-- `LatestBlockhashStorage::push_block` (rpc_solana.rs lines 737-746). -/
def LatestBlockhashStorage.push_block (st : LatestBlockhashStorage)
    (slot height hash : Nat) : LatestBlockhashStorage :=
  { st with
    slots := mapInsert slot
      { hash := hash, height := height, commitment := CommitmentLevel.Processed }
      st.slots }

/-- `LatestBlockhashStorage::update_commitment` (rpc_solana.rs lines 748-769). -/
def LatestBlockhashStorage.update_commitment (st : LatestBlockhashStorage)
    (slot : Nat) (commitment : CommitmentLevel) : LatestBlockhashStorage :=
  let st :=
    match mapLookup slot st.slots with
    | none => st
    | some v =>
        let slots := mapInsert slot { v with commitment := commitment } st.slots
        match commitment with
        | .Processed =>
            if slot > st.slot_processed then
              { st with slots := slots, slot_processed := slot }
            else { st with slots := slots }
        | .Confirmed => { st with slots := slots, slot_confirmed := slot }
        | .Finalized =>
            { st with slots := slots,
                      finalized_total := st.finalized_total + 1,
                      slot_finalized := slot }
  let (slots, ft) := evictLoop st.slots st.finalized_total
  { st with slots := slots, finalized_total := ft }

/-- Accounts of a `GeyserTransaction`: sorted lists of writable and
readable account keys (spec section 6; pubkeys modelled as `Nat`). -/
structure GeyserAccounts where
  writable : List Nat
  readable : List Nat
deriving DecidableEq, Repr

/-- `GeyserTransaction` (grpc_geyser, as consumed by rpc_solana.rs). -/
structure GeyserTransaction where
  vote : Bool
  fee : Nat
  unit_price : Nat
  units_consumed : Option Nat
  accounts : GeyserAccounts
deriving DecidableEq, Repr

/-- Insertion into an ascending-sorted list, the building block used to
model `Vec::sort_unstable` on `u64` (stability is irrelevant for `Nat`). -/
def sortInsert (x : Nat) : List Nat → List Nat
  | [] => [x]
  | y :: rest => if x ≤ y then x :: y :: rest else y :: sortInsert x rest

/-- Model of `Vec::sort_unstable` (ascending) on `u64` vectors. -/
def sortNats (l : List Nat) : List Nat := l.foldr sortInsert []

/-- `writable_account_fees.entry(account).or_default().push(price)` on the
`HashMap<Pubkey, Vec<u64>>`, modelled as an association list. -/
def accPush (k price : Nat) : List (Nat × List Nat) → List (Nat × List Nat)
  | [] => [(k, [price])]
  | (k', fs) :: rest =>
      if k = k' then (k', fs ++ [price]) :: rest
      else (k', fs) :: accPush k price rest

/-- `RecentPrioritizationFeesSlot` (rpc_solana.rs lines 871-875). -/
structure RecentPrioritizationFeesSlot where
  transaction_fees : List Nat
  writable_account_fees : List (Nat × List Nat)
deriving DecidableEq, Repr

/-- `RecentPrioritizationFeesSlot::create` (rpc_solana.rs lines 878-902):
one pass over the non-vote transactions, then sort every vector ascending. -/
def RecentPrioritizationFeesSlot.create (transactions : List GeyserTransaction) :
    RecentPrioritizationFeesSlot :=
  let nonVote := transactions.filter (fun tx => !tx.vote)
  let transaction_fees := nonVote.map (fun tx => tx.unit_price)
  let writable_account_fees :=
    nonVote.foldl
      (fun m tx =>
        tx.accounts.writable.foldl (fun m a => accPush a tx.unit_price m) m)
      []
  { transaction_fees := sortNats transaction_fees
    writable_account_fees := writable_account_fees.map (fun p => (p.1, sortNats p.2)) }

/-- `RecentPrioritizationFeesSlot::get_percentile` (rpc_solana.rs lines
926-929): `index = min(percentile, 9999) * len / 10000; fees.get(index)`. -/
def RecentPrioritizationFeesSlot.get_percentile (fees : List Nat)
    (percentile : Nat) : Option Nat :=
  fees.get? (min percentile 9999 * fees.length / 10000)

/-- `RecentPrioritizationFeesSlot::get_with_percentile` (rpc_solana.rs lines
919-924): percentile read when supplied, otherwise the first element. -/
def RecentPrioritizationFeesSlot.get_with_percentile (fees : List Nat)
    (percentile : Option Nat) : Option Nat :=
  match percentile with
  | some p => RecentPrioritizationFeesSlot.get_percentile fees p
  | none => fees.head?

/-- `RecentPrioritizationFeesSlot::get_fee` (rpc_solana.rs lines 904-917):
global percentile, then fold `max` over the per-account percentiles of the
listed accounts that have writable history in the slot. -/
def RecentPrioritizationFeesSlot.get_fee (slot : RecentPrioritizationFeesSlot)
    (account_keys : List Nat) (percentile : Option Nat) : Nat :=
  account_keys.foldl
    (fun fee account_key =>
      match mapLookup account_key slot.writable_account_fees with
      | some fees =>
          match RecentPrioritizationFeesSlot.get_with_percentile fees percentile with
          | some account_fee => max fee account_fee
          | none => fee
      | none => fee)
    ((RecentPrioritizationFeesSlot.get_with_percentile
        slot.transaction_fees percentile).getD 0)

/-- `StreamsSlotInfo` (rpc_solana.rs lines 779-792); `fee_average` uses
`f64` only in the derived output, not here. -/
structure StreamsSlotInfo where
  identity : Nat
  slot : Nat
  commitment : CommitmentLevel
  hash : Nat
  time : Int
  height : Nat
  transactions : List GeyserTransaction
  total_transactions_vote : Nat
  fees : RecentPrioritizationFeesSlot
  total_fee : Nat
  total_units_consumed : Nat
deriving DecidableEq, Repr

/-- `StreamsSlotInfo::new` (rpc_solana.rs lines 795-825). -/
def StreamsSlotInfo.new (slot hash : Nat) (time : Int) (height : Nat)
    (transactions : List GeyserTransaction) : StreamsSlotInfo :=
  { identity := 0
    slot := slot
    commitment := CommitmentLevel.Processed
    hash := hash
    time := time
    height := height
    transactions := transactions
    total_transactions_vote := (transactions.filter (fun tx => tx.vote)).length
    fees := RecentPrioritizationFeesSlot.create transactions
    total_fee := (transactions.map (fun tx => tx.fee)).sum
    total_units_consumed :=
      (transactions.map (fun tx => tx.units_consumed.getD 0)).sum }

/-- In-place mutation of one entry of the modelled map
(`if let Some(info) = slots_info.get_mut(&slot) { ... }`). -/
def mapAdjust (k : Nat) (f : α → α) : List (Nat × α) → List (Nat × α)
  | [] => []
  | (k', v) :: rest =>
      if k = k' then (k', f v) :: rest else (k', v) :: mapAdjust k f rest

/-- The recent-window eviction loop, fuelled so that it is structurally
recursive (each iteration of the source loop removes one element, so the
initial length bounds the number of iterations):
`while slots_info.len() >= MAX_NUM_RECENT_SLOT_INFO { slots_info.pop_first(); }`
(rpc_solana.rs lines 555-557). -/
def evictWindowAux : Nat → List α → List α
  | 0, l => l
  | fuel + 1, l =>
      if l.length ≥ MAX_NUM_RECENT_SLOT_INFO then evictWindowAux fuel l.tail
      else l

/-- The recent-window eviction loop of rpc_solana.rs lines 555-557:
`pop_first` on the sorted map model drops the head (the lowest key). -/
def evictWindow (l : List α) : List α := evictWindowAux l.length l

/-- `GeyserMessage` (grpc_geyser events consumed at rpc_solana.rs lines
531-561); `parent_slot` and `parent_hash` are received and ignored. -/
inductive GeyserMessage where
  | status (slot : Nat) (commitment : CommitmentLevel)
  | slotMsg (slot hash : Nat) (time : Int) (height parent_slot parent_hash : Nat)
      (transactions : List GeyserTransaction)
deriving DecidableEq, Repr

/-- The state owned by the reducer task (rpc_solana.rs lines 524-525). -/
structure ReducerState where
  latest_blockhash_storage : LatestBlockhashStorage := {}
  slots_info : List (Nat × StreamsSlotInfo) := []
deriving DecidableEq, Repr

/-- One geyser event step of `run_update_loop` (rpc_solana.rs lines 531-561);
broadcast sends are external to the state and dropped from the model. -/
def applyGeyserMessage (st : ReducerState) : GeyserMessage → ReducerState
  | .status slot commitment =>
      { latest_blockhash_storage :=
          st.latest_blockhash_storage.update_commitment slot commitment
        slots_info :=
          mapAdjust slot (fun info => { info with commitment := commitment })
            st.slots_info }
  | .slotMsg slot hash time height _parent_slot _parent_hash transactions =>
      let storage := st.latest_blockhash_storage.push_block slot height hash
      let info := StreamsSlotInfo.new slot hash time height transactions
      { latest_blockhash_storage := storage
        slots_info := evictWindow (mapInsert slot info st.slots_info) }

/-- The reducer state after a sequence of ingest events, from the initial
(default) state. -/
def applyGeyserMessages (msgs : List GeyserMessage) : ReducerState :=
  msgs.foldl applyGeyserMessage {}

/-- The set of slot numbers carried by `Slot` events of a sequence. -/
def seenSlots : List GeyserMessage → Finset Nat
  | [] => ∅
  | .status _ _ :: rest => seenSlots rest
  | .slotMsg slot _ _ _ _ _ _ :: rest => insert slot (seenSlots rest)

/-- `slice::binary_search` of the Rust standard library on a `u64` slice,
restricted to the success bit that the code consumes
(`binary_search(pubkey).is_ok()`): half-open window `[lo, hi)`, probe at
`lo + (hi - lo) / 2 = (lo + hi) / 2`. -/
def binarySearchAux (l : List Nat) (x : Nat) (lo hi : Nat) : Bool :=
  if lo < hi then
    match l.get? ((lo + hi) / 2) with
    | none => false
    | some v =>
        if v < x then binarySearchAux l x ((lo + hi) / 2 + 1) hi
        else if x < v then binarySearchAux l x lo ((lo + hi) / 2)
        else true
  else false
termination_by hi - lo
decreasing_by
  · omega
  · omega

/-- `pubkeys.binary_search(pubkey).is_ok()` over the whole slice. -/
def binarySearchMem (l : List Nat) (x : Nat) : Bool :=
  binarySearchAux l x 0 l.length

/-- `SlotSubscribeFilter` (rpc_solana.rs lines 957-962); levels are basis
points (validated `≤ 10000`, at most 5 of them, at subscription time). -/
structure SlotSubscribeFilter where
  read_write : List Nat
  read_only : List Nat
  levels : List Nat
deriving DecidableEq, Repr

/-- `SlotSubscribeFilter::filter_pubkeys` (rpc_solana.rs lines 1017-1022):
an empty required set matches everything, otherwise every required pubkey
must be found by binary search in the (pre-sorted) account list. -/
def SlotSubscribeFilter.filter_pubkeys (required pubkeys : List Nat) : Bool :=
  required.isEmpty || required.all (fun pubkey => binarySearchMem pubkeys pubkey)

/-- The payload of `SlotsSubscribeOutput::Slot` (rpc_solana.rs lines
1032-1045), minus the `f64` field `fee_average`, which no claim mentions
and which floating-point arithmetic keeps outside the embedding. -/
structure SlotStats where
  identity : Nat
  slot : Nat
  hash : Nat
  time : Int
  height : Nat
  total_transactions_filtered : Nat
  total_transactions_vote : Nat
  total_transactions : Nat
  fee_levels : List (Option Nat)
  total_fee : Nat
  total_units_consumed : Nat
deriving DecidableEq, Repr

/-- `StreamsSlotInfo::get_filtered` (rpc_solana.rs lines 827-868): collect
the fees of the non-vote transactions accepted by the filter, then count
them and evaluate the subscription's percentile levels on the sorted fees. -/
def StreamsSlotInfo.get_filtered (info : StreamsSlotInfo)
    (filter : SlotSubscribeFilter) : SlotStats :=
  let fees :=
    (info.transactions.filter (fun tx =>
      !tx.vote
        && SlotSubscribeFilter.filter_pubkeys filter.read_write tx.accounts.writable
        && SlotSubscribeFilter.filter_pubkeys filter.read_only tx.accounts.readable)).map
      (fun tx => tx.fee)
  let total_transactions_filtered := fees.length
  let fee_levels :=
    if filter.levels.isEmpty then []
    else
      filter.levels.map (fun percentile =>
        RecentPrioritizationFeesSlot.get_percentile (sortNats fees) percentile)
  { identity := info.identity
    slot := info.slot
    hash := info.hash
    time := info.time
    height := info.height
    total_transactions_filtered := total_transactions_filtered
    total_transactions_vote := info.total_transactions_vote
    total_transactions := info.transactions.length
    fee_levels := fee_levels
    total_fee := info.total_fee
    total_units_consumed := info.total_units_consumed }

/-- Failure payloads produced by the reducer's request handlers. -/
inductive RpcError where
  | invalidParams (msg : String)
  | internalError
  | minContextSlotNotReached (context_slot : Nat)
deriving DecidableEq, Repr

/-- Reducer outputs for the three remote sub-request kinds (the JSON-RPC
success/failure envelope, `jsonrpc` version and `id` stamping are
structural copies and are abstracted away here; see the multiplexer model
below for the id bookkeeping). -/
inductive RpcOut where
  | blockhashSuccess (context_slot blockhash last_valid_block_height : Nat)
  | slotSuccess (slot : Nat)
  | feesSuccess (fees : List (Nat × Nat))
  | failure (e : RpcError)
deriving DecidableEq, Repr

/-- The inner rollback loop (rpc_solana.rs lines 598-609): starting from
`slot`, repeatedly decrement and look the new slot number up; a present
entry with the requested commitment stops the walk, a present entry with a
different commitment is skipped, a missing slot number fails. The `0` case
models the release-mode wrap of `slot -= 1` on `0u64`: the subsequent
lookup of `u64::MAX` misses every store modelled here. -/
def findPrev (slots : List (Nat × LatestBlockhashSlot))
    (commitment : CommitmentLevel) : Nat → Option (Nat × LatestBlockhashSlot)
  | 0 => none
  | s + 1 =>
      match mapLookup s slots with
      | none => none
      | some prev_value =>
          if prev_value.commitment = commitment then some (s, prev_value)
          else findPrev slots commitment s

/-- The outer rollback loop (`for _ in 0..rollback`, rpc_solana.rs lines
597-610): apply `findPrev` `rollback` times, failing as soon as one step
fails. -/
def rollbackWalk (slots : List (Nat × LatestBlockhashSlot))
    (commitment : CommitmentLevel) (slot : Nat) (value : LatestBlockhashSlot) :
    Nat → Option (Nat × LatestBlockhashSlot)
  | 0 => some (slot, value)
  | r + 1 =>
      match findPrev slots commitment slot with
      | none => none
      | some (s, v) => rollbackWalk slots commitment s v r

/-- The `RpcRequest::LatestBlockhash` handler (rpc_solana.rs lines 576-619). -/
def handleLatestBlockhash (st : LatestBlockhashStorage)
    (commitment : CommitmentLevel) (rollback : Nat)
    (min_context_slot : Option Nat) : RpcOut :=
  if rollback > MAX_RECENT_BLOCKHASHES then
    RpcOut.failure (RpcError.invalidParams "rollback exceeds 300")
  else
    let slot := st.latestSlot commitment
    if (match min_context_slot with
        | some mcs => decide (slot < mcs)
        | none => false) then
      RpcOut.failure (RpcError.minContextSlotNotReached slot)
    else
      match mapLookup slot st.slots with
      | none => RpcOut.failure RpcError.internalError
      | some value =>
          match rollbackWalk st.slots commitment slot value rollback with
          | none =>
              RpcOut.failure (RpcError.invalidParams "failed to rollback block")
          | some (s, v) =>
              RpcOut.blockhashSuccess s v.hash (v.height + MAX_RECENT_BLOCKHASHES)

/-- The `RpcRequest::Slot` handler (rpc_solana.rs lines 631-646). -/
def handleSlot (st : LatestBlockhashStorage) (commitment : CommitmentLevel)
    (min_context_slot : Option Nat) : RpcOut :=
  let slot := st.latestSlot commitment
  if (match min_context_slot with
      | some mcs => decide (slot < mcs)
      | none => false) then
    RpcOut.failure (RpcError.minContextSlotNotReached slot)
  else
    RpcOut.slotSuccess slot

/-- The `RpcRequest::RecentPrioritizationFees` handler (rpc_solana.rs lines
620-630): one `(slot, fee)` pair per recent-window entry, in ascending slot
order (the map model is sorted ascending). -/
def handleRecentPrioritizationFees (slots_info : List (Nat × StreamsSlotInfo))
    (pubkeys : List Nat) (percentile : Option Nat) : RpcOut :=
  RpcOut.feesSuccess
    (slots_info.map (fun p => (p.1, p.2.fees.get_fee pubkeys percentile)))

/-- One JSON-RPC call of a batch, after the classification performed by the
parse loop of `SolanaRpc::on_request` (rpc_solana.rs lines 134-312).
`McCall.isLocal = true` stands for the calls answered locally (notifications,
invalid calls, parse failures, `getVersion`, unknown methods), which the
loop pushes as `Some(output)`; `isLocal = false` stands for the supported
queries it pushes as `None` together with an `RpcRequest` carrying the same
`id`. The JSON payloads themselves are external (serde) and abstracted;
`id` keeps the call's JSON-RPC id. -/
structure McCall where
  id : Nat
  isLocal : Bool
deriving DecidableEq, Repr

/-- An output slot of the multiplexer: which side produced it, stamped with
the `id` of the call it answers (both `create_success` and `create_failure`
copy the call's id verbatim). -/
inductive McOutput where
  | localOut (id : Nat)
  | remoteOut (id : Nat)
deriving DecidableEq, Repr

/-- The id carried by an output. -/
def McOutput.outId : McOutput → Nat
  | .localOut id => id
  | .remoteOut id => id

/-- The parse loop of `SolanaRpc::on_request` (rpc_solana.rs lines 132-312):
for each call in order, either push a local output and no request, or push
`None` and queue a request carrying the call's id. -/
def mcParseLoop : List McCall → List (Option McOutput) × List Nat
  | [] => ([], [])
  | c :: cs =>
      let (outputs, requests) := mcParseLoop cs
      if c.isLocal then (some (McOutput.localOut c.id) :: outputs, requests)
      else (none :: outputs, c.id :: requests)

/-- The reducer answers a queued request batch in order, producing one
output per request stamped with the request's id (rpc_solana.rs lines
571-649: `requests.into_iter().map(...)`, every arm ending in
`create_success`/`create_failure` with the carried id). -/
def mcAnswer (requestId : Nat) : McOutput := McOutput.remoteOut requestId

/-- The splice loop of `SolanaRpc::on_request` (rpc_solana.rs lines
345-355): walk the output vector once, filling each `None` position with
the next reducer output; `none` models the `"output index out of bounds"`
bail-out when the reducer returned more outputs than there are holes. -/
def mcSplice : List (Option McOutput) → List McOutput → Option (List (Option McOutput))
  | outputs, [] => some outputs
  | [], _ :: _ => none
  | some o :: rest, r :: rs => (mcSplice rest (r :: rs)).map (some o :: ·)
  | none :: rest, r :: rs => (mcSplice rest rs).map (some r :: ·)

/-- End-to-end output assembly of `SolanaRpc::on_request` for a batch that
reaches the reducer and gets its response back: parse loop, reducer answers
in queue order, splice, then the final `all outputs created` check
(rpc_solana.rs lines 359-375). -/
def mcRun (calls : List McCall) : Option (List McOutput) :=
  let (outputs, requests) := mcParseLoop calls
  match mcSplice outputs (requests.map mcAnswer) with
  | none => none
  | some spliced =>
      if spliced.length = calls.length then
        spliced.foldr
          (fun o acc =>
            match o, acc with
            | some o, some l => some (o :: l)
            | _, _ => none)
          (some [])
      else none

/-- `StreamsUpdateMessage` (rpc_solana.rs lines 932-941). -/
inductive StreamsUpdateMessage where
  | status (slot : Nat) (commitment : CommitmentLevel)
  | slotMsg (info : StreamsSlotInfo)
deriving DecidableEq, Repr

/-- A push emitted to a WebSocket subscriber: `create_success(None, id, out)`
on the subscription's request id, with the `SlotsSubscribeOutput` payload
(`Status` or `Slot`, the latter flattened to `SlotStats`). -/
inductive WsPush where
  | statusPush (id slot : Nat) (commitment : CommitmentLevel)
  | slotPush (id : Nat) (stats : SlotStats)
deriving DecidableEq, Repr

/-- The broadcast-update arm of the WebSocket loop
(`maybe_update = updates_rx.recv()`, Ok case, rpc_solana.rs lines 464-481):
with no active filter nothing is emitted; with an active filter, `Status`
notices at `Processed` are skipped, other `Status` notices become a
`Status` push, and `Slot` notices become a `Slot` push through the filter.
The push is stamped with the subscription's request id. -/
def handleUpdate (filter : Option (Nat × SlotSubscribeFilter))
    (update : StreamsUpdateMessage) : Option WsPush :=
  match filter with
  | none => none
  | some (id, f) =>
      match update with
      | .status slot commitment =>
          if commitment = CommitmentLevel.Processed then none
          else some (WsPush.statusPush id slot commitment)
      | .slotMsg info => some (WsPush.slotPush id (info.get_filtered f))

/-- A single mutation of the `LatestBlockhashStorage` (the two operations
the ingest reducer performs on it). -/
inductive StoreOp where
  | push (slot height hash : Nat)
  | update (slot : Nat) (commitment : CommitmentLevel)
deriving DecidableEq, Repr

/-- Apply a `StoreOp`. -/
def applyStoreOp (st : LatestBlockhashStorage) : StoreOp → LatestBlockhashStorage
  | .push slot height hash => st.push_block slot height hash
  | .update slot commitment => st.update_commitment slot commitment

/-- Precondition under which a `StoreOp` keeps the finalized counter equal
to the number of finalized entries: the slot it touches must not currently
hold a `Finalized` entry (the code increments on every `Finalized` status
for a present slot, transition or not, and never decrements on overwrite
or downgrade). -/
def storeOpOk (st : LatestBlockhashStorage) : StoreOp → Prop
  | .push slot _ _ =>
      ∀ v, mapLookup slot st.slots = some v →
        v.commitment ≠ CommitmentLevel.Finalized
  | .update slot _ =>
      ∀ v, mapLookup slot st.slots = some v →
        v.commitment ≠ CommitmentLevel.Finalized

/-- The entries of the blockhash map currently at a given commitment, in
ascending slot order (the map model is sorted). -/
def slotsAtCommitment (l : List (Nat × LatestBlockhashSlot))
    (c : CommitmentLevel) : List (Nat × LatestBlockhashSlot) :=
  l.filter (fun p => p.2.commitment = c)

/-- The map has no gaps between any two of its keys: every slot number
lying between two present keys is present as well. -/
abbrev Contiguous (l : List (Nat × LatestBlockhashSlot)) : Prop :=
  ∀ p ∈ l, ∀ q ∈ l, ∀ k, k ≤ q.1 → p.1 ≤ k → mapLookup k l ≠ none

/-- How many slots of a seen-set are larger than `s`. -/
def cntGreater (seen : Finset Nat) (s : Nat) : Nat :=
  (seen.filter (fun t => s < t)).card

/-- The seen-set accumulated left-to-right while processing events, starting
from an already-seen set (`seenSlots` is the special case starting at `∅`). -/
def seenFrom (seen : Finset Nat) : List GeyserMessage → Finset Nat
  | [] => seen
  | .status _ _ :: rest => seenFrom seen rest
  | .slotMsg slot _ _ _ _ _ _ :: rest => seenFrom (insert slot seen) rest

/-- The invariant tying the recent-slots window to the set of slot numbers
seen so far: the window is a well-formed map whose size is
`min |seen| 149` and whose keys are exactly the seen slots with fewer than
149 larger seen slots — i.e. the `min |seen| 149` largest seen slots
(149 = MAX_NUM_RECENT_SLOT_INFO - 1, the size the eviction loop leaves). -/
def WindowInv (seen : Finset Nat) (window : List (Nat × StreamsSlotInfo)) :
    Prop :=
  MapWF window
  ∧ window.length = min seen.card 149
  ∧ ∀ s, s ∈ mapKeys window ↔ s ∈ seen ∧ cntGreater seen s < 149

/-- The body of the per-account loop of `get_fee`, named so that proofs can
speak about the fold (`get_fee` unfolds to `foldl` of this step by `rfl`). -/
def getFeeStep (idx : RecentPrioritizationFeesSlot) (percentile : Option Nat)
    (fee account_key : Nat) : Nat :=
  match mapLookup account_key idx.writable_account_fees with
  | some fees =>
      match RecentPrioritizationFeesSlot.get_with_percentile fees percentile with
      | some account_fee => max fee account_fee
      | none => fee
  | none => fee

/-! ## Lemmas about the `BTreeMap` model -/

theorem mapKeys_cons (p : Nat × α) (l : List (Nat × α)) :
    mapKeys (p :: l) = p.1 :: mapKeys l := rfl

theorem mapLookup_mem {k : Nat} {v : α} {l : List (Nat × α)}
    (h : mapLookup k l = some v) : (k, v) ∈ l := by
  induction l with
  | nil => simp [mapLookup] at h
  | cons p rest ih =>
      obtain ⟨k', v'⟩ := p
      by_cases hk : k = k'
      · subst hk
        simp [mapLookup] at h
        subst h
        exact List.mem_cons_self _ _
      · simp [mapLookup, hk] at h
        exact List.mem_cons_of_mem _ (ih h)

theorem mapLookup_eq_none_iff {k : Nat} {l : List (Nat × α)} :
    mapLookup k l = none ↔ k ∉ mapKeys l := by
  induction l with
  | nil => simp [mapLookup, mapKeys]
  | cons p rest ih =>
      obtain ⟨k', v'⟩ := p
      by_cases hk : k = k'
      · subst hk
        simp [mapLookup, mapKeys]
      · simp only [mapLookup, hk, if_false, ih, mapKeys_cons, List.mem_cons]
        tauto

theorem mem_mapLookup {k : Nat} {v : α} {l : List (Nat × α)}
    (hnd : (mapKeys l).Nodup) (h : (k, v) ∈ l) : mapLookup k l = some v := by
  induction l with
  | nil => simp at h
  | cons p rest ih =>
      obtain ⟨k', v'⟩ := p
      rw [mapKeys_cons, List.nodup_cons] at hnd
      rcases List.mem_cons.mp h with h1 | h1
      · obtain ⟨hk, hv⟩ := Prod.mk.injEq .. ▸ h1
        simp [mapLookup, hk, hv]
      · have hk : k ≠ k' := by
          intro he
          subst he
          exact hnd.1 (List.mem_map.mpr ⟨(k, v), h1, rfl⟩)
        simp [mapLookup, hk]
        exact ih hnd.2 h1

theorem mapLookup_mapInsert_self (k : Nat) (v : α) (l : List (Nat × α)) :
    mapLookup k (mapInsert k v l) = some v := by
  induction l with
  | nil => simp [mapInsert, mapLookup]
  | cons p rest ih =>
      obtain ⟨k', v'⟩ := p
      by_cases h1 : k < k'
      · simp [mapInsert, h1, mapLookup]
      · by_cases h2 : k = k'
        · simp [mapInsert, h1, h2, mapLookup]
        · simp [mapInsert, h1, h2, mapLookup, ih]

theorem mapLookup_mapInsert_ne {a k : Nat} (hne : a ≠ k) (v : α)
    (l : List (Nat × α)) :
    mapLookup a (mapInsert k v l) = mapLookup a l := by
  induction l with
  | nil => simp [mapInsert, mapLookup, hne]
  | cons p rest ih =>
      obtain ⟨k', v'⟩ := p
      by_cases h1 : k < k'
      · simp [mapInsert, h1, mapLookup, hne]
      · by_cases h2 : k = k'
        · subst h2
          simp [mapInsert, h1, mapLookup, hne]
        · by_cases h3 : a = k'
          · simp [mapInsert, h1, h2, mapLookup, h3]
          · simp [mapInsert, h1, h2, mapLookup, h3, ih]

theorem mem_mapKeys_mapInsert {a k : Nat} (v : α) (l : List (Nat × α)) :
    a ∈ mapKeys (mapInsert k v l) ↔ a = k ∨ a ∈ mapKeys l := by
  induction l with
  | nil => simp [mapInsert, mapKeys]
  | cons p rest ih =>
      obtain ⟨k', v'⟩ := p
      by_cases h1 : k < k'
      · simp [mapInsert, h1, mapKeys_cons]
      · by_cases h2 : k = k'
        · subst h2
          simp [mapInsert, h1, mapKeys_cons]
        · simp [mapInsert, h1, h2, mapKeys_cons, ih]
          tauto

theorem MapWF.tail {p : Nat × α} {l : List (Nat × α)} (h : MapWF (p :: l)) :
    MapWF l := by
  rw [MapWF, mapKeys_cons, List.sorted_cons] at h
  exact h.2

theorem MapWF.head_lt {p : Nat × α} {l : List (Nat × α)} (h : MapWF (p :: l)) :
    ∀ a ∈ mapKeys l, p.1 < a := by
  rw [MapWF, mapKeys_cons, List.sorted_cons] at h
  exact h.1

theorem MapWF.nodupKeys {l : List (Nat × α)} (h : MapWF l) :
    (mapKeys l).Nodup := (List.Sorted.nodup h)

theorem MapWF.mapInsert (k : Nat) (v : α) {l : List (Nat × α)}
    (h : MapWF l) : MapWF (Solfees.mapInsert k v l) := by
  induction l with
  | nil =>
      simp [Solfees.mapInsert, MapWF, mapKeys]
  | cons p rest ih =>
      obtain ⟨k', v'⟩ := p
      by_cases h1 : k < k'
      · rw [Solfees.mapInsert]
        simp only [h1, if_true]
        rw [MapWF, mapKeys_cons, mapKeys_cons, List.sorted_cons]
        constructor
        · intro b hb
          rcases List.mem_cons.mp hb with hb | hb
          · omega
          · exact lt_trans h1 (h.head_lt b hb)
        · exact h
      · by_cases h2 : k = k'
        · subst h2
          rw [Solfees.mapInsert]
          simp only [h1, if_false, if_true, if_pos rfl]
          rw [MapWF, mapKeys_cons] at h ⊢
          exact h
        · rw [Solfees.mapInsert]
          simp only [h1, h2, if_false]
          rw [MapWF, mapKeys_cons, List.sorted_cons]
          refine ⟨?_, ih h.tail⟩
          intro b hb
          rcases (mem_mapKeys_mapInsert v rest).mp hb with hb | hb
          · subst hb
            omega
          · exact h.head_lt b hb

/-! ## Percentile lemmas (slot fee index) -/

theorem get_percentile_nil (p : Nat) :
    RecentPrioritizationFeesSlot.get_percentile [] p = none := by
  simp [RecentPrioritizationFeesSlot.get_percentile]

theorem get_percentile_index_lt {v : List Nat} (hv : v ≠ []) (p : Nat) :
    min p 9999 * v.length / 10000 < v.length := by
  have hlen : 0 < v.length := List.length_pos.mpr hv
  have h1 : min p 9999 * v.length ≤ 9999 * v.length :=
    Nat.mul_le_mul_right _ (Nat.min_le_right _ _)
  have h2 : min p 9999 * v.length / 10000 ≤ 9999 * v.length / 10000 :=
    Nat.div_le_div_right h1
  have h3 : 9999 * v.length / 10000 < v.length := by
    rw [Nat.div_lt_iff_lt_mul (by norm_num : 0 < 10000)]
    calc 9999 * v.length < 10000 * v.length :=
          (Nat.mul_lt_mul_right hlen).mpr (by norm_num)
      _ = v.length * 10000 := Nat.mul_comm _ _
  omega

theorem sorted_head_le {v : List Nat} (hs : v.Sorted (· ≤ ·)) :
    ∀ x ∈ v, v.headD 0 ≤ x := by
  cases v with
  | nil => simp
  | cons a rest =>
      rw [List.sorted_cons] at hs
      intro x hx
      rcases List.mem_cons.mp hx with hx | hx
      · simp [hx]
      · simpa using hs.1 x hx

/-- C4: for an ascending-sorted nonempty fee vector, `get_percentile`
returns the element at index `min(p, 9999) * len / 10000`; on the empty
vector it is `None`; with no percentile supplied the read returns the
first element, which is the minimum. -/
theorem claim_C4_percentile_law (v : List Nat) (p : Nat)
    (hs : v.Sorted (· ≤ ·)) (hv : v ≠ []) :
    (∃ h : min p 9999 * v.length / 10000 < v.length,
        RecentPrioritizationFeesSlot.get_percentile v p
          = some (v.get ⟨min p 9999 * v.length / 10000, h⟩))
    ∧ (∀ q, RecentPrioritizationFeesSlot.get_percentile [] q = none)
    ∧ (∃ m, RecentPrioritizationFeesSlot.get_with_percentile v none = some m
          ∧ ∀ x ∈ v, m ≤ x) := by
  refine ⟨⟨get_percentile_index_lt hv p, ?_⟩, fun q => get_percentile_nil q, ?_⟩
  · rw [RecentPrioritizationFeesSlot.get_percentile]
    exact List.get?_eq_get _
  · cases v with
    | nil => exact absurd rfl hv
    | cons a rest =>
        exact ⟨a, rfl, sorted_head_le hs⟩

/-- Witness for C4 at a concrete sorted vector. -/
theorem claim_C4_witness :
    RecentPrioritizationFeesSlot.get_percentile [3, 5, 9] 5000 = some 5 := by
  obtain ⟨⟨h, heq⟩, -, -⟩ :=
    claim_C4_percentile_law [3, 5, 9] 5000 (by decide) (by decide)
  rw [heq]
  rfl

/-! ## Fee lookup lemmas (`get_fee`) -/

theorem get_fee_eq_foldl (idx : RecentPrioritizationFeesSlot)
    (keys : List Nat) (pct : Option Nat) :
    idx.get_fee keys pct
      = keys.foldl (getFeeStep idx pct)
          ((RecentPrioritizationFeesSlot.get_with_percentile
              idx.transaction_fees pct).getD 0) := rfl

theorem le_getFeeStep (idx : RecentPrioritizationFeesSlot) (pct : Option Nat)
    (fee k : Nat) : fee ≤ getFeeStep idx pct fee k := by
  cases hfs : mapLookup k idx.writable_account_fees with
  | none => simp [getFeeStep, hfs]
  | some fees =>
      cases ha : RecentPrioritizationFeesSlot.get_with_percentile fees pct with
      | none => simp [getFeeStep, hfs, ha]
      | some a => simp [getFeeStep, hfs, ha, Nat.le_max_left]

theorem le_foldl_getFeeStep (idx : RecentPrioritizationFeesSlot)
    (pct : Option Nat) :
    ∀ (keys : List Nat) (init : Nat),
      init ≤ keys.foldl (getFeeStep idx pct) init := by
  intro keys
  induction keys with
  | nil => intro init; exact le_refl _
  | cons x rest ih =>
      intro init
      calc init ≤ getFeeStep idx pct init x := le_getFeeStep ..
        _ ≤ (x :: rest).foldl (getFeeStep idx pct) init := by
              rw [List.foldl_cons]; exact ih _

theorem account_le_foldl_getFeeStep (idx : RecentPrioritizationFeesSlot)
    (pct : Option Nat) :
    ∀ (keys : List Nat) (init k : Nat), k ∈ keys →
      ∀ fs, mapLookup k idx.writable_account_fees = some fs →
      ∀ a, RecentPrioritizationFeesSlot.get_with_percentile fs pct = some a →
      a ≤ keys.foldl (getFeeStep idx pct) init := by
  intro keys
  induction keys with
  | nil => intro init k hk; simp at hk
  | cons x rest ih =>
      intro init k hk fs hfs a ha
      rw [List.foldl_cons]
      rcases List.mem_cons.mp hk with hkx | hkr
      · subst hkx
        have hstep : a ≤ getFeeStep idx pct init k := by
          simp [getFeeStep, hfs, ha, Nat.le_max_right]
        exact le_trans hstep (le_foldl_getFeeStep ..)
      · exact ih _ k hkr fs hfs a ha

theorem foldl_getFeeStep_attained (idx : RecentPrioritizationFeesSlot)
    (pct : Option Nat) :
    ∀ (keys : List Nat) (init : Nat),
      keys.foldl (getFeeStep idx pct) init = init
      ∨ ∃ k ∈ keys, ∃ fs, mapLookup k idx.writable_account_fees = some fs
          ∧ RecentPrioritizationFeesSlot.get_with_percentile fs pct
              = some (keys.foldl (getFeeStep idx pct) init) := by
  intro keys
  induction keys with
  | nil => intro init; exact Or.inl rfl
  | cons x rest ih =>
      intro init
      rw [List.foldl_cons]
      rcases ih (getFeeStep idx pct init x) with h | h
      · rw [h]
        cases hfs : mapLookup x idx.writable_account_fees with
        | none => exact Or.inl (by simp [getFeeStep, hfs])
        | some fees =>
            cases ha : RecentPrioritizationFeesSlot.get_with_percentile fees pct with
            | none => exact Or.inl (by simp [getFeeStep, hfs, ha])
            | some a =>
                rcases max_choice init a with hm | hm
                · exact Or.inl (by simp [getFeeStep, hfs, ha, hm])
                · refine Or.inr ⟨x, List.mem_cons_self _ _, fees, hfs, ?_⟩
                  rw [ha]
                  simp [getFeeStep, hfs, ha, hm]
      · obtain ⟨k, hk, fs, hfs, ha⟩ := h
        exact Or.inr ⟨k, List.mem_cons_of_mem _ hk, fs, hfs, ha⟩

theorem get_with_percentile_nil (pct : Option Nat) :
    RecentPrioritizationFeesSlot.get_with_percentile [] pct = none := by
  cases pct with
  | none => rfl
  | some p => exact get_percentile_nil p

theorem foldl_getFeeStep_trivial (idx : RecentPrioritizationFeesSlot)
    (pct : Option Nat) :
    ∀ (keys : List Nat) (init : Nat),
      (∀ k ∈ keys, ∀ fs, mapLookup k idx.writable_account_fees = some fs →
        fs = []) →
      keys.foldl (getFeeStep idx pct) init = init := by
  intro keys
  induction keys with
  | nil => intro init _; rfl
  | cons x rest ih =>
      intro init hall
      rw [List.foldl_cons]
      have hx : getFeeStep idx pct init x = init := by
        cases hfs : mapLookup x idx.writable_account_fees with
        | none => simp [getFeeStep, hfs]
        | some fees =>
            have hnil : fees = [] := hall x (List.mem_cons_self _ _) fees hfs
            subst hnil
            simp [getFeeStep, hfs, get_with_percentile_nil]
      rw [hx]
      exact ih init fun k hk => hall k (List.mem_cons_of_mem _ hk)

/-- C5: `get_fee` is the maximum of the global percentile value (default 0)
and the per-account percentile values of the listed accounts with writable
history in the slot: it dominates the global value and every such account
value, it is attained by one of them, and it is 0 when no values exist. -/
theorem claim_C5_fee_max (idx : RecentPrioritizationFeesSlot)
    (keys : List Nat) (pct : Option Nat) :
    (RecentPrioritizationFeesSlot.get_with_percentile
        idx.transaction_fees pct).getD 0 ≤ idx.get_fee keys pct
    ∧ (∀ k ∈ keys, ∀ fs, mapLookup k idx.writable_account_fees = some fs →
        ∀ a, RecentPrioritizationFeesSlot.get_with_percentile fs pct = some a →
          a ≤ idx.get_fee keys pct)
    ∧ (idx.get_fee keys pct
          = (RecentPrioritizationFeesSlot.get_with_percentile
              idx.transaction_fees pct).getD 0
        ∨ ∃ k ∈ keys, ∃ fs,
            mapLookup k idx.writable_account_fees = some fs
            ∧ RecentPrioritizationFeesSlot.get_with_percentile fs pct
                = some (idx.get_fee keys pct))
    ∧ (idx.transaction_fees = [] →
        (∀ k ∈ keys, ∀ fs, mapLookup k idx.writable_account_fees = some fs →
          fs = []) →
        idx.get_fee keys pct = 0) := by
  refine ⟨?_, ?_, ?_, ?_⟩
  · rw [get_fee_eq_foldl]
    exact le_foldl_getFeeStep ..
  · intro k hk fs hfs a ha
    rw [get_fee_eq_foldl]
    exact account_le_foldl_getFeeStep idx pct keys _ k hk fs hfs a ha
  · rw [get_fee_eq_foldl]
    exact foldl_getFeeStep_attained ..
  · intro hglob hacc
    rw [get_fee_eq_foldl, foldl_getFeeStep_trivial idx pct keys _ hacc, hglob,
      get_with_percentile_nil]
    rfl

/-- Witness for C5 at a concrete fee index: the result dominates the global
percentile value. -/
theorem claim_C5_witness :
    ({ transaction_fees := [1, 5],
       writable_account_fees := [(7, [2, 9])] } :
        RecentPrioritizationFeesSlot).get_fee [7] none = 2
    ∧ 1 ≤ ({ transaction_fees := [1, 5],
             writable_account_fees := [(7, [2, 9])] } :
              RecentPrioritizationFeesSlot).get_fee [7] none := by
  refine ⟨by decide, ?_⟩
  exact (claim_C5_fee_max
    { transaction_fees := [1, 5], writable_account_fees := [(7, [2, 9])] }
    [7] none).1

/-! ## WebSocket status pushes (C8) -/

/-- C8: with an active filter, a broadcast `Status` notice at `Processed`
commitment is never pushed; a `Status` notice at any other commitment is
pushed as a `Status` push carrying the same slot and commitment, stamped
with the subscription's request id. -/
theorem claim_C8_status_pushes (id slot : Nat) (f : SlotSubscribeFilter)
    (c : CommitmentLevel) (hc : c ≠ CommitmentLevel.Processed) :
    handleUpdate (some (id, f))
        (StreamsUpdateMessage.status slot CommitmentLevel.Processed) = none
    ∧ handleUpdate (some (id, f)) (StreamsUpdateMessage.status slot c)
        = some (WsPush.statusPush id slot c) := by
  exact ⟨rfl, by simp [handleUpdate, hc]⟩

/-- Witness for C8 at a concrete subscription and a Confirmed notice. -/
theorem claim_C8_witness :
    handleUpdate (some (3, ⟨[], [], []⟩))
        (StreamsUpdateMessage.status 7 CommitmentLevel.Confirmed)
      = some (WsPush.statusPush 3 7 CommitmentLevel.Confirmed) :=
  (claim_C8_status_pushes 3 7 ⟨[], [], []⟩ CommitmentLevel.Confirmed
    (by decide)).2

/-! ## Min-context guard (C9) and missing cached slot (C10) -/

/-- C9 counterexample: with `rollback = 301` and the cached latest slot (0)
strictly below `min_context_slot = 5`, the handler fails with
`invalid_params("rollback exceeds 300")`, not with
`MinContextSlotNotReached` as the claim's "if and only if" requires
(the rollback bound is checked before the min-context guard,
rpc_solana.rs lines 577-591). -/
theorem claim_C9_counterexample :
    (({} : LatestBlockhashStorage).latestSlot CommitmentLevel.Processed < 5)
    ∧ handleLatestBlockhash {} CommitmentLevel.Processed 301 (some 5)
        = RpcOut.failure (RpcError.invalidParams "rollback exceeds 300")
    ∧ handleLatestBlockhash {} CommitmentLevel.Processed 301 (some 5)
        ≠ RpcOut.failure (RpcError.minContextSlotNotReached 0) := by
  refine ⟨by decide, by decide, by decide⟩

/-- C9 (amended): for `getSlot`, and for `getLatestBlockhash` whenever
`rollback ≤ 300`, a request with `min_context_slot` set fails with
`MinContextSlotNotReached` carrying the cached latest slot for the
requested commitment exactly when that cached slot is strictly below
`min_context_slot`; otherwise no `MinContextSlotNotReached` failure is
produced. -/
theorem claim_C9_min_context_guard (st : LatestBlockhashStorage)
    (c : CommitmentLevel) (m rollback : Nat)
    (hr : rollback ≤ MAX_RECENT_BLOCKHASHES) :
    (st.latestSlot c < m →
        handleSlot st c (some m)
          = RpcOut.failure (RpcError.minContextSlotNotReached (st.latestSlot c)))
    ∧ (¬ st.latestSlot c < m →
        handleSlot st c (some m) = RpcOut.slotSuccess (st.latestSlot c))
    ∧ (st.latestSlot c < m →
        handleLatestBlockhash st c rollback (some m)
          = RpcOut.failure (RpcError.minContextSlotNotReached (st.latestSlot c)))
    ∧ (¬ st.latestSlot c < m →
        ∀ cs, handleLatestBlockhash st c rollback (some m)
          ≠ RpcOut.failure (RpcError.minContextSlotNotReached cs)) := by
  have hr' : ¬ rollback > MAX_RECENT_BLOCKHASHES := by omega
  refine ⟨?_, ?_, ?_, ?_⟩
  · intro hlt
    simp [handleSlot, hlt]
  · intro hge
    simp [handleSlot, hge]
  · intro hlt
    simp [handleLatestBlockhash, hr', hlt]
  · intro hge cs
    simp only [handleLatestBlockhash, hr', if_false, hge, decide_False,
      Bool.false_eq_true]
    cases mapLookup (st.latestSlot c) st.slots with
    | none => simp
    | some value =>
        simp only
        cases rollbackWalk st.slots c (st.latestSlot c) value rollback with
        | none => simp
        | some p => simp

/-- Witness for C9: an empty storage with `min_context_slot = 5` yields the
min-context failure with `context_slot = 0` for both request kinds. -/
theorem claim_C9_witness :
    handleSlot {} CommitmentLevel.Processed (some 5)
        = RpcOut.failure (RpcError.minContextSlotNotReached 0)
    ∧ handleLatestBlockhash {} CommitmentLevel.Processed 0 (some 5)
        = RpcOut.failure (RpcError.minContextSlotNotReached 0) :=
  ⟨(claim_C9_min_context_guard {} CommitmentLevel.Processed 5 0 (by decide)).1
      (by decide),
   (claim_C9_min_context_guard {} CommitmentLevel.Processed 5 0
      (by decide)).2.2.1 (by decide)⟩

/-- C10 counterexample: the cached latest slot (0) is absent from the empty
map, yet a request with `rollback = 301` and no `min_context_slot` returns
`invalid_params("rollback exceeds 300")`, not the internal-error failure
the claim promises for every such request (the rollback bound is checked
first, rpc_solana.rs line 577). -/
theorem claim_C10_counterexample :
    mapLookup (({} : LatestBlockhashStorage).latestSlot CommitmentLevel.Processed)
        ({} : LatestBlockhashStorage).slots = none
    ∧ handleLatestBlockhash {} CommitmentLevel.Processed 301 none
        = RpcOut.failure (RpcError.invalidParams "rollback exceeds 300")
    ∧ handleLatestBlockhash {} CommitmentLevel.Processed 301 none
        ≠ RpcOut.failure RpcError.internalError := by
  refine ⟨rfl, by decide, by decide⟩

/-- C10 (amended): when the cached latest slot for the requested commitment
is absent from the map — in particular on the default (empty) storage — a
`getLatestBlockhash` request without `min_context_slot` and with
`rollback ≤ 300` returns the JSON-RPC internal-error failure, not a
blockhash result. -/
theorem claim_C10_internal_error (st : LatestBlockhashStorage)
    (c : CommitmentLevel) (rollback : Nat)
    (hr : rollback ≤ MAX_RECENT_BLOCKHASHES)
    (hmiss : mapLookup (st.latestSlot c) st.slots = none) :
    handleLatestBlockhash st c rollback none
      = RpcOut.failure RpcError.internalError := by
  have hr' : ¬ rollback > MAX_RECENT_BLOCKHASHES := by omega
  simp [handleLatestBlockhash, hr', hmiss]

/-- Witness for C10 on the default storage before any ingest. -/
theorem claim_C10_witness :
    handleLatestBlockhash {} CommitmentLevel.Processed 0 none
      = RpcOut.failure RpcError.internalError :=
  claim_C10_internal_error {} CommitmentLevel.Processed 0 (by decide) rfl

/-! ## Finalized counter (C3) -/

theorem countFinalized_cons (p : Nat × LatestBlockhashSlot)
    (l : List (Nat × LatestBlockhashSlot)) :
    countFinalized (p :: l)
      = (if p.2.commitment = CommitmentLevel.Finalized then 1 else 0)
        + countFinalized l := by
  by_cases h : p.2.commitment = CommitmentLevel.Finalized
  · simp [countFinalized, List.filter_cons, h]
    omega
  · simp [countFinalized, List.filter_cons, h]

theorem evictLoop_preserves {l : List (Nat × LatestBlockhashSlot)} {ft : Nat}
    (h : ft = countFinalized l) :
    (evictLoop l ft).2 = countFinalized (evictLoop l ft).1 := by
  induction l generalizing ft with
  | nil => simpa [evictLoop] using h
  | cons p rest ih =>
      obtain ⟨k, v⟩ := p
      rw [evictLoop]
      rw [countFinalized_cons] at h
      dsimp only at h
      by_cases hgt : ft > MAX_RECENT_BLOCKHASHES + 10
      · simp only [hgt, if_true]
        apply ih
        by_cases hf : v.commitment = CommitmentLevel.Finalized
        · rw [if_pos hf] at h ⊢
          omega
        · rw [if_neg hf] at h ⊢
          omega
      · simp only [hgt, if_false]
        rw [countFinalized_cons]
        dsimp only
        exact h

theorem countFinalized_mapInsert_absent {k : Nat} (v : LatestBlockhashSlot)
    {l : List (Nat × LatestBlockhashSlot)}
    (habs : mapLookup k l = none) :
    countFinalized (mapInsert k v l)
      = countFinalized l
        + (if v.commitment = CommitmentLevel.Finalized then 1 else 0) := by
  induction l with
  | nil =>
      show countFinalized [(k, v)] = countFinalized [] + _
      rw [countFinalized_cons]
      dsimp only
      simp [countFinalized]
  | cons p rest ih =>
      obtain ⟨k', v'⟩ := p
      have hkk : k ≠ k' := by
        intro h
        subst h
        simp [mapLookup] at habs
      have habs' : mapLookup k rest = none := by
        simpa [mapLookup, hkk] using habs
      by_cases h1 : k < k'
      · simp only [mapInsert, h1, if_true]
        rw [countFinalized_cons, countFinalized_cons]
        dsimp only
        omega
      · simp only [mapInsert, h1, hkk, if_false]
        rw [countFinalized_cons, countFinalized_cons, ih habs']
        dsimp only
        omega

theorem countFinalized_mapInsert_replace {k : Nat}
    (v : LatestBlockhashSlot) {w : LatestBlockhashSlot}
    {l : List (Nat × LatestBlockhashSlot)} (hwf : MapWF l)
    (hfound : mapLookup k l = some w)
    (hnotfin : w.commitment ≠ CommitmentLevel.Finalized) :
    countFinalized (mapInsert k v l)
      = countFinalized l
        + (if v.commitment = CommitmentLevel.Finalized then 1 else 0) := by
  induction l with
  | nil => simp [mapLookup] at hfound
  | cons p rest ih =>
      obtain ⟨k', v'⟩ := p
      by_cases h2 : k = k'
      · subst h2
        have hw : v' = w := by simpa [mapLookup] using hfound
        subst hw
        have hins : mapInsert k v ((k, v') :: rest) = (k, v) :: rest := by
          simp [mapInsert]
        rw [hins, countFinalized_cons, countFinalized_cons]
        dsimp only
        rw [if_neg hnotfin]
        omega
      · have hfound' : mapLookup k rest = some w := by
          simpa [mapLookup, h2] using hfound
        have hmem : k ∈ mapKeys rest := by
          have := mapLookup_mem hfound'
          exact List.mem_map.mpr ⟨(k, w), this, rfl⟩
        by_cases h1 : k < k'
        · exact absurd (hwf.head_lt k hmem) (by omega)
        · simp only [mapInsert, h1, h2, if_false]
          rw [countFinalized_cons, countFinalized_cons, ih hwf.tail hfound']
          dsimp only
          omega

/-- C3 counterexample: on a storage holding one `Finalized` entry at slot 1
with a correct counter, `update_commitment(1, Finalized)` increments the
counter again without any transition, leaving it different from the number
of finalized entries — the invariant is not preserved by every
`update_commitment`. -/
theorem claim_C3_counterexample :
    (({ slots := [(1, { hash := 0, height := 0,
                        commitment := CommitmentLevel.Finalized })],
        finalized_total := 1, slot_processed := 0, slot_confirmed := 0,
        slot_finalized := 1 } : LatestBlockhashStorage).finalized_total
      = countFinalized [(1, { hash := 0, height := 0,
                              commitment := CommitmentLevel.Finalized })])
    ∧ (({ slots := [(1, { hash := 0, height := 0,
                          commitment := CommitmentLevel.Finalized })],
          finalized_total := 1, slot_processed := 0, slot_confirmed := 0,
          slot_finalized := 1 } : LatestBlockhashStorage).update_commitment 1
            CommitmentLevel.Finalized).finalized_total
        ≠ countFinalized
            (({ slots := [(1, { hash := 0, height := 0,
                                commitment := CommitmentLevel.Finalized })],
                finalized_total := 1, slot_processed := 0, slot_confirmed := 0,
                slot_finalized := 1 } : LatestBlockhashStorage).update_commitment
              1 CommitmentLevel.Finalized).slots := by
  refine ⟨by decide, by decide⟩

/-- C3 (amended): the finalized counter equals the number of finalized
entries after any `push_block` or `update_commitment` that starts from a
state satisfying the invariant and does not touch a slot currently holding
a `Finalized` entry (the code increments on every `Finalized` status for a
present slot, transition or not, and never decrements on overwrite or
downgrade; during eviction the counter decrements exactly when the removed
entry was finalized). -/
theorem claim_C3_finalized_counter (st : LatestBlockhashStorage)
    (op : StoreOp) (hwf : MapWF st.slots)
    (hP : st.finalized_total = countFinalized st.slots)
    (hok : storeOpOk st op) :
    (applyStoreOp st op).finalized_total
      = countFinalized (applyStoreOp st op).slots := by
  cases op with
  | push slot height hash =>
      show st.finalized_total
        = countFinalized (mapInsert slot
            { hash := hash, height := height,
              commitment := CommitmentLevel.Processed } st.slots)
      cases hl : mapLookup slot st.slots with
      | none =>
          rw [countFinalized_mapInsert_absent _ hl]
          simpa using hP
      | some w =>
          have hnf := hok w hl
          rw [countFinalized_mapInsert_replace _ hwf hl hnf]
          simpa using hP
  | update slot c =>
      show (st.update_commitment slot c).finalized_total
        = countFinalized (st.update_commitment slot c).slots
      rw [LatestBlockhashStorage.update_commitment]
      cases hl : mapLookup slot st.slots with
      | none =>
          simp only [hl]
          have := evictLoop_preserves hP
          rcases hev : evictLoop st.slots st.finalized_total with ⟨l', ft'⟩
          rw [hev] at this
          simpa [hev] using this
      | some w =>
          have hnf := hok w hl
          have hcount : countFinalized
              (mapInsert slot { w with commitment := c } st.slots)
              = countFinalized st.slots
                + (if c = CommitmentLevel.Finalized then 1 else 0) := by
            simpa using countFinalized_mapInsert_replace
              { w with commitment := c } hwf hl hnf
          cases c with
          | Processed =>
              simp only [hl]
              by_cases hgt : slot > st.slot_processed
              · simp only [hgt, if_true]
                have hP' : st.finalized_total
                    = countFinalized (mapInsert slot
                        { w with commitment := CommitmentLevel.Processed }
                        st.slots) := by
                  rw [hcount]
                  simpa using hP
                have := evictLoop_preserves hP'
                rcases hev : evictLoop
                    (mapInsert slot
                      { w with commitment := CommitmentLevel.Processed }
                      st.slots) st.finalized_total with ⟨l', ft'⟩
                rw [hev] at this
                simpa [hev] using this
              · simp only [hgt, if_false]
                have hP' : st.finalized_total
                    = countFinalized (mapInsert slot
                        { w with commitment := CommitmentLevel.Processed }
                        st.slots) := by
                  rw [hcount]
                  simpa using hP
                have := evictLoop_preserves hP'
                rcases hev : evictLoop
                    (mapInsert slot
                      { w with commitment := CommitmentLevel.Processed }
                      st.slots) st.finalized_total with ⟨l', ft'⟩
                rw [hev] at this
                simpa [hev] using this
          | Confirmed =>
              simp only [hl]
              have hP' : st.finalized_total
                  = countFinalized (mapInsert slot
                      { w with commitment := CommitmentLevel.Confirmed }
                      st.slots) := by
                rw [hcount]
                simpa using hP
              have := evictLoop_preserves hP'
              rcases hev : evictLoop
                  (mapInsert slot
                    { w with commitment := CommitmentLevel.Confirmed }
                    st.slots) st.finalized_total with ⟨l', ft'⟩
              rw [hev] at this
              simpa [hev] using this
          | Finalized =>
              simp only [hl]
              have hP' : st.finalized_total + 1
                  = countFinalized (mapInsert slot
                      { w with commitment := CommitmentLevel.Finalized }
                      st.slots) := by
                rw [hcount]
                simp [hP]
              have := evictLoop_preserves hP'
              rcases hev : evictLoop
                  (mapInsert slot
                    { w with commitment := CommitmentLevel.Finalized }
                    st.slots) (st.finalized_total + 1) with ⟨l', ft'⟩
              rw [hev] at this
              simpa [hev] using this

/-- Witness for C3 on the empty storage and a `push_block`. -/
theorem claim_C3_witness :
    (applyStoreOp {} (StoreOp.push 1 2 3)).finalized_total
      = countFinalized (applyStoreOp {} (StoreOp.push 1 2 3)).slots :=
  claim_C3_finalized_counter {} (StoreOp.push 1 2 3)
    (by simp [MapWF, mapKeys]) rfl
    (by intro v h; simp [mapLookup] at h)

/-! ## Binary search and filter semantics (C7) -/

theorem sorted_get?_le {l : List Nat} (hs : l.Sorted (· ≤ ·)) {i j a b : Nat}
    (hij : i ≤ j) (ha : l.get? i = some a) (hb : l.get? j = some b) :
    a ≤ b := by
  rcases Nat.eq_or_lt_of_le hij with rfl | hlt
  · rw [ha] at hb
    cases hb
    exact le_refl _
  · obtain ⟨hi', hai⟩ := List.get?_eq_some.mp ha
    obtain ⟨hj', hbj⟩ := List.get?_eq_some.mp hb
    rw [← hai, ← hbj]
    exact hs.rel_get_of_lt hlt

theorem binarySearchAux_sound (l : List Nat) (x : Nat) :
    ∀ (d lo hi : Nat), hi - lo = d →
      binarySearchAux l x lo hi = true → x ∈ l := by
  intro d
  induction d using Nat.strong_induction_on with
  | _ d ih =>
      intro lo hi hd hb
      subst hd
      rw [binarySearchAux] at hb
      split at hb
      · split at hb
        · exact absurd hb (by simp)
        · rename_i hlt v hm
          split at hb
          · rename_i h1
            exact ih (hi - ((lo + hi) / 2 + 1)) (by omega) _ _ rfl hb
          · split at hb
            · rename_i h1 h2
              exact ih ((lo + hi) / 2 - lo) (by omega) _ _ rfl hb
            · rename_i h1 h2
              have hxv : x = v := by omega
              subst hxv
              exact List.get?_mem hm
      · exact absurd hb (by simp)

theorem binarySearchAux_complete (l : List Nat) (x : Nat)
    (hs : l.Sorted (· ≤ ·)) :
    ∀ (d lo hi : Nat), hi - lo = d → hi ≤ l.length →
      (∃ i, lo ≤ i ∧ i < hi ∧ l.get? i = some x) →
      binarySearchAux l x lo hi = true := by
  intro d
  induction d using Nat.strong_induction_on with
  | _ d ih =>
      intro lo hi hd hhi hw
      obtain ⟨i, hloi, hihi, hget⟩ := hw
      subst hd
      have hlt : lo < hi := by omega
      have hmidlt : (lo + hi) / 2 < l.length := by omega
      rw [binarySearchAux, if_pos hlt]
      rw [List.get?_eq_get hmidlt]
      by_cases h1 : l.get ⟨(lo + hi) / 2, hmidlt⟩ < x
      · simp only [if_pos h1]
        apply ih (hi - ((lo + hi) / 2 + 1)) (by omega) _ _ rfl hhi
        refine ⟨i, ?_, hihi, hget⟩
        by_contra hle
        push_neg at hle
        have hxle : x ≤ l.get ⟨(lo + hi) / 2, hmidlt⟩ :=
          sorted_get?_le hs (by omega) hget (List.get?_eq_get hmidlt)
        omega
      · by_cases h2 : x < l.get ⟨(lo + hi) / 2, hmidlt⟩
        · simp only [if_neg h1, if_pos h2]
          apply ih ((lo + hi) / 2 - lo) (by omega) _ _ rfl (by omega)
          refine ⟨i, hloi, ?_, hget⟩
          by_contra hge
          push_neg at hge
          have hvle : l.get ⟨(lo + hi) / 2, hmidlt⟩ ≤ x :=
            sorted_get?_le hs hge (List.get?_eq_get hmidlt) hget
          omega
        · simp only [if_neg h1, if_neg h2]

theorem binarySearchMem_iff {l : List Nat} (hs : l.Sorted (· ≤ ·)) (x : Nat) :
    binarySearchMem l x = true ↔ x ∈ l := by
  constructor
  · exact binarySearchAux_sound l x l.length 0 l.length rfl
  · intro hmem
    obtain ⟨i, hget⟩ := List.mem_iff_get?.mp hmem
    have hilen : i < l.length := (List.get?_eq_some.mp hget).1
    exact binarySearchAux_complete l x hs l.length 0 l.length rfl (le_refl _)
      ⟨i, Nat.zero_le _, hilen, hget⟩

theorem filter_pubkeys_iff {pubkeys : List Nat} (hs : pubkeys.Sorted (· ≤ ·))
    (required : List Nat) :
    SlotSubscribeFilter.filter_pubkeys required pubkeys = true
      ↔ ∀ p ∈ required, p ∈ pubkeys := by
  rw [SlotSubscribeFilter.filter_pubkeys]
  simp only [Bool.or_eq_true, List.isEmpty_iff, List.all_eq_true]
  constructor
  · rintro (rfl | h)
    · simp
    · intro p hp
      exact (binarySearchMem_iff hs p).mp (h p hp)
  · intro h
    refine Or.inr ?_
    intro p hp
    exact (binarySearchMem_iff hs p).mpr (h p hp)

theorem filter_pubkeys_nil (pubkeys : List Nat) :
    SlotSubscribeFilter.filter_pubkeys [] pubkeys = true := rfl

theorem get_filtered_total (info : StreamsSlotInfo) (f : SlotSubscribeFilter) :
    (info.get_filtered f).total_transactions_filtered
      = (info.transactions.filter (fun tx =>
          !tx.vote
            && SlotSubscribeFilter.filter_pubkeys f.read_write
                tx.accounts.writable
            && SlotSubscribeFilter.filter_pubkeys f.read_only
                tx.accounts.readable)).length := by
  simp [StreamsSlotInfo.get_filtered]

/-- C7: a transaction contributes to `total_transactions_filtered` exactly
when it is non-vote and every required `read_write` (resp. `read_only`)
pubkey occurs in its sorted writable (resp. readable) account list; with
both required sets empty every non-vote transaction of the slot is
counted. -/
theorem claim_C7_filter_semantics (info : StreamsSlotInfo)
    (f : SlotSubscribeFilter)
    (hsorted : ∀ tx ∈ info.transactions,
      tx.accounts.writable.Sorted (· ≤ ·)
        ∧ tx.accounts.readable.Sorted (· ≤ ·)) :
    (info.get_filtered f).total_transactions_filtered
        = (info.transactions.filter (fun tx =>
            decide (tx.vote = false
              ∧ (∀ p ∈ f.read_write, p ∈ tx.accounts.writable)
              ∧ (∀ p ∈ f.read_only, p ∈ tx.accounts.readable)))).length
    ∧ (f.read_write = [] → f.read_only = [] →
        (info.get_filtered f).total_transactions_filtered
          = (info.transactions.filter (fun tx => !tx.vote)).length) := by
  constructor
  · rw [get_filtered_total]
    congr 1
    apply List.filter_congr
    intro tx htx
    rw [Bool.eq_iff_iff]
    simp only [Bool.and_eq_true, Bool.not_eq_true', decide_eq_true_eq,
      filter_pubkeys_iff (hsorted tx htx).1,
      filter_pubkeys_iff (hsorted tx htx).2]
    tauto
  · intro hrw hro
    rw [get_filtered_total, hrw, hro]
    congr 1
    apply List.filter_congr
    intro tx _
    simp [filter_pubkeys_nil]

/-- Witness for C7: a slot with one matching non-vote transaction, one
non-matching non-vote transaction and one vote transaction counts exactly
one filtered transaction. -/
theorem claim_C7_witness :
    ((StreamsSlotInfo.new 10 11 0 12
        [{ vote := false, fee := 100, unit_price := 4, units_consumed := none,
           accounts := { writable := [5, 8], readable := [2] } },
         { vote := false, fee := 50, unit_price := 3, units_consumed := none,
           accounts := { writable := [6], readable := [2] } },
         { vote := true, fee := 1, unit_price := 0, units_consumed := none,
           accounts := { writable := [5], readable := [] } }]).get_filtered
      ⟨[5], [], []⟩).total_transactions_filtered = 1 := by
  have h := (claim_C7_filter_semantics
    (StreamsSlotInfo.new 10 11 0 12
      [{ vote := false, fee := 100, unit_price := 4, units_consumed := none,
         accounts := { writable := [5, 8], readable := [2] } },
       { vote := false, fee := 50, unit_price := 3, units_consumed := none,
         accounts := { writable := [6], readable := [2] } },
       { vote := true, fee := 1, unit_price := 0, units_consumed := none,
         accounts := { writable := [5], readable := [] } }])
    ⟨[5], [], []⟩ (by decide)).1
  rw [h]
  decide

/-! ## Batch order through the multiplexer (C6) -/

theorem mcParseLoop_cons (c : McCall) (cs : List McCall) :
    mcParseLoop (c :: cs)
      = if c.isLocal then
          (some (McOutput.localOut c.id) :: (mcParseLoop cs).1,
            (mcParseLoop cs).2)
        else
          (none :: (mcParseLoop cs).1, c.id :: (mcParseLoop cs).2) := by
  rcases h : mcParseLoop cs with ⟨o, r⟩
  simp [mcParseLoop, h]

theorem mcSplice_phase (calls : List McCall) :
    mcSplice (mcParseLoop calls).1 ((mcParseLoop calls).2.map mcAnswer)
      = some (calls.map (fun c =>
          some (if c.isLocal then McOutput.localOut c.id
                else McOutput.remoteOut c.id))) := by
  induction calls with
  | nil => rfl
  | cons c cs ih =>
      rw [mcParseLoop_cons]
      cases hc : c.isLocal
      · simp only [hc, if_false, Bool.false_eq_true, List.map_cons]
        rw [show mcAnswer c.id = McOutput.remoteOut c.id from rfl]
        rw [show mcSplice (none :: (mcParseLoop cs).1)
              (McOutput.remoteOut c.id :: ((mcParseLoop cs).2.map mcAnswer))
            = (mcSplice (mcParseLoop cs).1
                ((mcParseLoop cs).2.map mcAnswer)).map
                  (some (McOutput.remoteOut c.id) :: ·) from rfl]
        rw [ih]
        simp [List.map_cons]
      · simp only [hc, if_true, List.map_cons]
        cases hr : (mcParseLoop cs).2.map mcAnswer with
        | nil =>
            rw [hr] at ih
            rw [show mcSplice (some (McOutput.localOut c.id) :: (mcParseLoop cs).1) []
                = some (some (McOutput.localOut c.id) :: (mcParseLoop cs).1)
              from rfl]
            simp only [mcSplice, Option.some.injEq] at ih
            rw [ih]
        | cons a as =>
            rw [hr] at ih
            rw [show mcSplice (some (McOutput.localOut c.id) :: (mcParseLoop cs).1)
                  (a :: as)
                = (mcSplice (mcParseLoop cs).1 (a :: as)).map
                    (some (McOutput.localOut c.id) :: ·) from rfl]
            rw [ih]
            simp

theorem seq_map_some (l : List McOutput) :
    (l.map some).foldr
        (fun o acc =>
          match o, acc with
          | some o, some t => some (o :: t)
          | _, _ => none)
        (some []) = some l := by
  induction l with
  | nil => rfl
  | cons a rest ih => simp [ih]

/-- C6: for every classified batch of `n` calls, the multiplexer assembles
exactly `n` outputs and the i-th output carries the i-th call's id — local
failures keep their positions and reducer outputs are spliced back, in
request order, into the remaining positions. -/
theorem claim_C6_batch_order (calls : List McCall) :
    ∃ final : List McOutput,
      mcRun calls = some final
      ∧ final.length = calls.length
      ∧ ∀ i : Nat,
          (final.get? i).map McOutput.outId = (calls.get? i).map McCall.id := by
  refine ⟨calls.map (fun c =>
      if c.isLocal then McOutput.localOut c.id else McOutput.remoteOut c.id),
    ?_, by simp, ?_⟩
  · rw [mcRun]
    rcases hp : mcParseLoop calls with ⟨outs, reqs⟩
    have hs := mcSplice_phase calls
    rw [hp] at hs
    simp only at hs
    dsimp only
    rw [hs]
    have hlen : (calls.map (fun c =>
        some (if c.isLocal then McOutput.localOut c.id
              else McOutput.remoteOut c.id))).length = calls.length := by
      simp
    simp only [hlen, if_pos rfl]
    rw [show calls.map (fun c =>
          some (if c.isLocal then McOutput.localOut c.id
                else McOutput.remoteOut c.id))
        = (calls.map (fun c =>
            if c.isLocal then McOutput.localOut c.id
            else McOutput.remoteOut c.id)).map some by simp]
    exact seq_map_some _
  · intro i
    rw [List.get?_map]
    cases hcall : calls.get? i with
    | none => rfl
    | some c =>
        simp only [Option.map_some']
        cases hc : c.isLocal <;> simp [McOutput.outId, hc]

/-! ## Rollback walk (C1) -/

theorem mem_slotsAtCommitment {l : List (Nat × LatestBlockhashSlot)}
    {c : CommitmentLevel} {p : Nat × LatestBlockhashSlot} :
    p ∈ slotsAtCommitment l c ↔ p ∈ l ∧ p.2.commitment = c := by
  simp [slotsAtCommitment, List.mem_filter]

theorem slotsAt_reverse_pairwise {l : List (Nat × LatestBlockhashSlot)}
    (c : CommitmentLevel) (hwf : MapWF l) :
    ((slotsAtCommitment l c).reverse).Pairwise
      (fun a b : Nat × LatestBlockhashSlot => b.1 < a.1) := by
  have h2 : l.Pairwise (fun a b : Nat × LatestBlockhashSlot => a.1 < b.1) :=
    List.pairwise_map.mp hwf
  have h1 : (slotsAtCommitment l c).Pairwise
      (fun a b : Nat × LatestBlockhashSlot => a.1 < b.1) :=
    h2.sublist (List.filter_sublist _)
  simpa [List.pairwise_reverse] using h1

theorem pairwise_get_desc {L : List (Nat × LatestBlockhashSlot)}
    (hL : L.Pairwise (fun a b : Nat × LatestBlockhashSlot => b.1 < a.1))
    {i j : Nat} {a b : Nat × LatestBlockhashSlot} (hij : i < j)
    (ha : L.get? i = some a) (hb : L.get? j = some b) : b.1 < a.1 := by
  obtain ⟨hi', hai⟩ := List.get?_eq_some.mp ha
  obtain ⟨hj', hbj⟩ := List.get?_eq_some.mp hb
  rw [← hai, ← hbj]
  exact List.pairwise_iff_get.mp hL ⟨i, hi'⟩ ⟨j, hj'⟩ (Fin.mk_lt_mk.mpr hij)

theorem lookup_of_mem_slotsAt {l : List (Nat × LatestBlockhashSlot)}
    {c : CommitmentLevel} {p : Nat × LatestBlockhashSlot} (hwf : MapWF l)
    (hp : p ∈ slotsAtCommitment l c) :
    mapLookup p.1 l = some p.2 ∧ p.2.commitment = c := by
  obtain ⟨hmem, hc⟩ := mem_slotsAtCommitment.mp hp
  exact ⟨mem_mapLookup hwf.nodupKeys hmem, hc⟩

theorem findPrev_max {l : List (Nat × LatestBlockhashSlot)}
    {c : CommitmentLevel} (hwf : MapWF l) (hcont : Contiguous l) :
    ∀ (s t : Nat) (e vs : LatestBlockhashSlot),
      mapLookup s l = some vs →
      mapLookup t l = some e → e.commitment = c → t < s →
      (∀ u eu, mapLookup u l = some eu → eu.commitment = c → u < s → u ≤ t) →
      findPrev l c s = some (t, e) := by
  intro s
  induction s using Nat.strong_induction_on with
  | _ s ih =>
      intro t e vs hsv hte hec hts hmaxu
      cases s with
      | zero => omega
      | succ n =>
          rw [findPrev]
          cases hn : mapLookup n l with
          | none =>
              exfalso
              have hpt : (t, e) ∈ l := mapLookup_mem hte
              have hps : (n + 1, vs) ∈ l := mapLookup_mem hsv
              exact hcont (t, e) hpt (n + 1, vs) hps n (by omega) (by omega) hn
          | some e' =>
              simp only
              by_cases hce : e'.commitment = c
              · rw [if_pos hce]
                have htn : t = n := by
                  have h1 : n ≤ t := hmaxu n e' hn hce (by omega)
                  omega
                subst htn
                rw [hn] at hte
                rw [Option.some.inj hte]
              · rw [if_neg hce]
                have htn : t < n := by
                  rcases Nat.lt_or_ge t n with h | h
                  · exact h
                  · exfalso
                    have : t = n := by omega
                    subst this
                    rw [hn] at hte
                    exact hce (Option.some.inj hte ▸ hec)
                exact ih n (by omega) t e e' hn hte hec htn
                  (fun u eu hu huc hun => hmaxu u eu hu huc (by omega))

theorem findPrev_step {l : List (Nat × LatestBlockhashSlot)}
    {c : CommitmentLevel} (hwf : MapWF l) (hcont : Contiguous l)
    {j : Nat} {p p' : Nat × LatestBlockhashSlot}
    (hj : (slotsAtCommitment l c).reverse.get? j = some p)
    (hj1 : (slotsAtCommitment l c).reverse.get? (j + 1) = some p') :
    findPrev l c p.1 = some p' := by
  have hLp := slotsAt_reverse_pairwise c hwf (l := l)
  have hpL : p ∈ (slotsAtCommitment l c).reverse := List.get?_mem hj
  have hp'L : p' ∈ (slotsAtCommitment l c).reverse := List.get?_mem hj1
  have hpl := lookup_of_mem_slotsAt hwf (List.mem_reverse.mp hpL)
  have hp'l := lookup_of_mem_slotsAt hwf (List.mem_reverse.mp hp'L)
  have hlt : p'.1 < p.1 := pairwise_get_desc hLp (Nat.lt_succ_self j) hj hj1
  have hres := findPrev_max hwf hcont p.1 p'.1 p'.2 p.2 hpl.1 hp'l.1 hp'l.2 hlt
    ?_
  · exact hres
  · intro u eu hu huc hup
    have humem : (u, eu) ∈ slotsAtCommitment l c :=
      mem_slotsAtCommitment.mpr ⟨mapLookup_mem hu, huc⟩
    have humemL : (u, eu) ∈ (slotsAtCommitment l c).reverse :=
      List.mem_reverse.mpr humem
    obtain ⟨i, hi⟩ := List.mem_iff_get?.mp humemL
    rcases Nat.lt_trichotomy i j with hij | hij | hij
    · have := pairwise_get_desc hLp hij hi hj
      simp only at this
      omega
    · subst hij
      rw [hj] at hi
      have hpe := Option.some.inj hi
      have hu1 : u = p.1 := by rw [hpe]
      omega
    · have hj1i : j + 1 ≤ i := hij
      rcases Nat.eq_or_lt_of_le hj1i with he | hlt'
      · rw [← he] at hi
        rw [hj1] at hi
        have hpe := Option.some.inj hi
        simp [hpe]
      · have := pairwise_get_desc hLp hlt' hj1 hi
        simp only at this
        omega

theorem rollbackWalk_get {l : List (Nat × LatestBlockhashSlot)}
    {c : CommitmentLevel} (hwf : MapWF l) (hcont : Contiguous l) :
    ∀ (r j : Nat) (p : Nat × LatestBlockhashSlot),
      (slotsAtCommitment l c).reverse.get? j = some p →
      j + r < (slotsAtCommitment l c).length →
      ∃ q, (slotsAtCommitment l c).reverse.get? (j + r) = some q
        ∧ rollbackWalk l c p.1 p.2 r = some q := by
  intro r
  induction r with
  | zero =>
      intro j p hj hlen
      exact ⟨p, by simpa using hj, by simp [rollbackWalk]⟩
  | succ r ih =>
      intro j p hj hlen
      have hj1lt : j + 1 < (slotsAtCommitment l c).reverse.length := by
        rw [List.length_reverse]
        omega
      obtain ⟨p', hp'⟩ : ∃ p',
          (slotsAtCommitment l c).reverse.get? (j + 1) = some p' :=
        ⟨_, List.get?_eq_get hj1lt⟩
      have hfp := findPrev_step hwf hcont hj hp'
      obtain ⟨q, hq, hwalk⟩ := ih (j + 1) p' hp' (by omega)
      refine ⟨q, ?_, ?_⟩
      · rw [show j + (r + 1) = (j + 1) + r from by omega]
        exact hq
      · rw [rollbackWalk]
        simp only [hfp]
        exact hwalk

theorem desc_head_of_max {L : List (Nat × LatestBlockhashSlot)}
    (hL : L.Pairwise (fun a b : Nat × LatestBlockhashSlot => b.1 < a.1))
    {p : Nat × LatestBlockhashSlot} (hp : p ∈ L)
    (hmax : ∀ q ∈ L, q.1 ≤ p.1) : L.get? 0 = some p := by
  cases L with
  | nil => simp at hp
  | cons q rest =>
      rcases List.mem_cons.mp hp with h | h
      · rw [h]
        rfl
      · exfalso
        rw [List.pairwise_cons] at hL
        have h1 := hL.1 p h
        have h2 := hmax q (List.mem_cons_self _ _)
        omega

/-- C1 counterexample: a store holding finalized slots 3 and 5 (slot 4 was
skipped upstream) has two slots at `Finalized`, whose second most recent is
slot 3; yet `getLatestBlockhash(rollback = 1)` fails with
`invalid_params("failed to rollback block")` because the walk aborts at the
first missing slot number (rpc_solana.rs line 607) instead of walking on. -/
theorem claim_C1_counterexample :
    (slotsAtCommitment
        [(3, { hash := 30, height := 0,
               commitment := CommitmentLevel.Finalized }),
         (5, { hash := 50, height := 1,
               commitment := CommitmentLevel.Finalized })]
        CommitmentLevel.Finalized).length = 2
    ∧ (slotsAtCommitment
        [(3, { hash := 30, height := 0,
               commitment := CommitmentLevel.Finalized }),
         (5, { hash := 50, height := 1,
               commitment := CommitmentLevel.Finalized })]
        CommitmentLevel.Finalized).reverse.get? 1
      = some (3, { hash := 30, height := 0,
                   commitment := CommitmentLevel.Finalized })
    ∧ handleLatestBlockhash
        { slots := [(3, { hash := 30, height := 0,
                          commitment := CommitmentLevel.Finalized }),
                    (5, { hash := 50, height := 1,
                          commitment := CommitmentLevel.Finalized })],
          finalized_total := 2, slot_processed := 0, slot_confirmed := 0,
          slot_finalized := 5 } CommitmentLevel.Finalized 1 none
      = RpcOut.failure (RpcError.invalidParams "failed to rollback block") := by
  refine ⟨by decide, by decide, by decide⟩

/-- C1 (amended): when the store's keys have no gaps, the cached latest
slot for commitment `C` is present, carries commitment `C` and is the
largest slot at `C`, and the store holds at least `r + 1` slots at `C`
with `r ≤ 300`, the rollback walk starts there, skips entries at other
commitments, and returns the `(r+1)`-th most recent slot at `C`
(0-indexed) with its hash and `height + 300`; when the walk instead
reaches a missing slot number it fails with
`invalid_params("failed to rollback block")`. -/
theorem claim_C1_rollback (st : LatestBlockhashStorage) (c : CommitmentLevel)
    (rollback : Nat) (v : LatestBlockhashSlot)
    (hwf : MapWF st.slots) (hcont : Contiguous st.slots)
    (hr : rollback ≤ MAX_RECENT_BLOCKHASHES)
    (hs : mapLookup (st.latestSlot c) st.slots = some v)
    (hvc : v.commitment = c)
    (hmax : ∀ p ∈ st.slots, p.2.commitment = c → p.1 ≤ st.latestSlot c)
    (hcount : rollback + 1 ≤ (slotsAtCommitment st.slots c).length) :
    ∃ p : Nat × LatestBlockhashSlot,
      (slotsAtCommitment st.slots c).reverse.get? rollback = some p
      ∧ handleLatestBlockhash st c rollback none
          = RpcOut.blockhashSuccess p.1 p.2.hash
              (p.2.height + MAX_RECENT_BLOCKHASHES) := by
  have hmemL : (st.latestSlot c, v) ∈ (slotsAtCommitment st.slots c).reverse :=
    List.mem_reverse.mpr
      (mem_slotsAtCommitment.mpr ⟨mapLookup_mem hs, hvc⟩)
  have hL0 : (slotsAtCommitment st.slots c).reverse.get? 0
      = some (st.latestSlot c, v) := by
    apply desc_head_of_max (slotsAt_reverse_pairwise c hwf) hmemL
    intro q hq
    have hq' := List.mem_reverse.mp hq
    obtain ⟨hql, hqc⟩ := mem_slotsAtCommitment.mp hq'
    exact hmax q hql hqc
  obtain ⟨q, hq, hwalk⟩ := rollbackWalk_get hwf hcont rollback 0
    (st.latestSlot c, v) hL0 (by omega)
  refine ⟨q, by simpa using hq, ?_⟩
  have hr' : ¬ rollback > MAX_RECENT_BLOCKHASHES := by omega
  simp only [handleLatestBlockhash, hr', if_false, hs, hwalk]
  simp

/-- Witness for C1: a contiguous store of three finalized slots rolled back
by one returns the second most recent finalized slot. -/
theorem claim_C1_witness :
    handleLatestBlockhash
      { slots := [(1, { hash := 100, height := 10,
                        commitment := CommitmentLevel.Finalized }),
                  (2, { hash := 200, height := 20,
                        commitment := CommitmentLevel.Finalized }),
                  (3, { hash := 300, height := 30,
                        commitment := CommitmentLevel.Finalized })],
        finalized_total := 3, slot_processed := 0, slot_confirmed := 0,
        slot_finalized := 3 } CommitmentLevel.Finalized 1 none
      = RpcOut.blockhashSuccess 2 200 320 := by
  obtain ⟨p, hp, heq⟩ := claim_C1_rollback
    { slots := [(1, { hash := 100, height := 10,
                      commitment := CommitmentLevel.Finalized }),
                (2, { hash := 200, height := 20,
                      commitment := CommitmentLevel.Finalized }),
                (3, { hash := 300, height := 30,
                      commitment := CommitmentLevel.Finalized })],
      finalized_total := 3, slot_processed := 0, slot_confirmed := 0,
      slot_finalized := 3 } CommitmentLevel.Finalized 1
    { hash := 300, height := 30, commitment := CommitmentLevel.Finalized }
    (by decide) (by decide) (by decide) (by decide) (by decide)
    (by decide) (by decide)
  have hp2 : p = (2, { hash := 200, height := 20,
                       commitment := CommitmentLevel.Finalized }) := by
    have hconc : (slotsAtCommitment
        [(1, { hash := 100, height := 10,
               commitment := CommitmentLevel.Finalized }),
         (2, { hash := 200, height := 20,
               commitment := CommitmentLevel.Finalized }),
         (3, { hash := 300, height := 30,
               commitment := CommitmentLevel.Finalized })]
        CommitmentLevel.Finalized).reverse.get? 1
      = some (2, { hash := 200, height := 20,
                   commitment := CommitmentLevel.Finalized }) := by decide
    rw [hconc] at hp
    exact (Option.some.inj hp).symm
  rw [heq, hp2]
  decide

/-! ## Recent-slots window (C2): list-side lemmas -/

theorem evictWindowAux_eq_drop :
    ∀ (fuel : Nat) (l : List α), l.length - 149 ≤ fuel →
      evictWindowAux fuel l = l.drop (l.length - 149) := by
  intro fuel
  induction fuel with
  | zero =>
      intro l h
      have h0 : l.length - 149 = 0 := by omega
      rw [h0, List.drop_zero]
      rfl
  | succ fuel ih =>
      intro l h
      rw [evictWindowAux]
      by_cases hc : l.length ≥ MAX_NUM_RECENT_SLOT_INFO
      · have hc' : MAX_NUM_RECENT_SLOT_INFO ≤ l.length := hc
        simp only [MAX_NUM_RECENT_SLOT_INFO] at hc'
        rw [if_pos hc]
        rw [ih l.tail (by rw [List.length_tail]; omega)]
        rw [List.length_tail, ← List.drop_one, List.drop_drop]
        have harith : 1 + (l.length - 1 - 149) = l.length - 149 := by omega
        rw [harith]
      · rw [if_neg hc]
        have h0 : l.length - 149 = 0 := by
          simp [MAX_NUM_RECENT_SLOT_INFO] at hc
          omega
        rw [h0, List.drop_zero]

theorem evictWindow_eq_drop (l : List α) :
    evictWindow l = l.drop (l.length - 149) :=
  evictWindowAux_eq_drop l.length l (by omega)

theorem length_evictWindow (l : List α) :
    (evictWindow l).length = min l.length 149 := by
  rw [evictWindow_eq_drop, List.length_drop]
  omega

theorem mapKeys_mapAdjust (k : Nat) (f : α → α) (l : List (Nat × α)) :
    mapKeys (mapAdjust k f l) = mapKeys l := by
  induction l with
  | nil => rfl
  | cons p rest ih =>
      obtain ⟨k', v⟩ := p
      by_cases h : k = k'
      · simp [mapAdjust, h, mapKeys_cons]
      · simp [mapAdjust, h, mapKeys_cons, ih]

theorem length_mapInsert_not_mem {k : Nat} (v : α) {l : List (Nat × α)}
    (h : k ∉ mapKeys l) : (mapInsert k v l).length = l.length + 1 := by
  induction l with
  | nil => rfl
  | cons p rest ih =>
      obtain ⟨k', v'⟩ := p
      rw [mapKeys_cons] at h
      simp only [List.mem_cons, not_or] at h
      by_cases h1 : k < k'
      · simp [mapInsert, h1]
      · simp [mapInsert, h1, h.1, ih h.2]

theorem length_mapInsert_mem {k : Nat} (v : α) {l : List (Nat × α)}
    (hwf : MapWF l) (h : k ∈ mapKeys l) :
    (mapInsert k v l).length = l.length := by
  induction l with
  | nil => simp [mapKeys] at h
  | cons p rest ih =>
      obtain ⟨k', v'⟩ := p
      rw [mapKeys_cons] at h
      by_cases h2 : k = k'
      · have h1 : ¬ k < k' := by omega
        simp [mapInsert, h1, h2]
      · have hmem : k ∈ mapKeys rest := by
          rcases List.mem_cons.mp h with h | h
          · exact absurd h h2
          · exact h
        have h1 : ¬ k < k' := by
          have := hwf.head_lt k hmem
          omega
        simp [mapInsert, h1, h2, ih hwf.tail hmem]

theorem mapInsert_of_lt_head {k : Nat} (v : α) {l : List (Nat × α)}
    (hne : l ≠ []) (h : ∀ t ∈ mapKeys l, k < t) :
    mapInsert k v l = (k, v) :: l := by
  cases l with
  | nil => exact absurd rfl hne
  | cons p rest =>
      have hk : k < p.1 := h p.1 (by rw [mapKeys_cons]; exact List.mem_cons_self _ _)
      obtain ⟨k', v'⟩ := p
      simp [mapInsert, hk]

theorem keys_subset_of_inv {seen : Finset Nat}
    {window : List (Nat × StreamsSlotInfo)} (hinv : WindowInv seen window) :
    ∀ s ∈ mapKeys window, s ∈ seen :=
  fun s hs => ((hinv.2.2 s).mp hs).1

/-! ## Recent-slots window (C2): counting lemmas -/

theorem cntGreater_le_card (seen : Finset Nat) (s : Nat) :
    cntGreater seen s ≤ seen.card :=
  Finset.card_le_card (Finset.filter_subset _ _)

theorem cntGreater_anti {seen : Finset Nat} {a b : Nat} (h : a ≤ b) :
    cntGreater seen b ≤ cntGreater seen a := by
  apply Finset.card_le_card
  intro t ht
  rw [Finset.mem_filter] at ht ⊢
  exact ⟨ht.1, lt_of_le_of_lt h ht.2⟩

theorem cntGreater_strict_anti {seen : Finset Nat} {a b : Nat}
    (hb : b ∈ seen) (h : a < b) :
    cntGreater seen b < cntGreater seen a := by
  have hsub : insert b (seen.filter (fun t => b < t))
      ⊆ seen.filter (fun t => a < t) := by
    intro t ht
    rcases Finset.mem_insert.mp ht with rfl | ht
    · exact Finset.mem_filter.mpr ⟨hb, h⟩
    · rw [Finset.mem_filter] at ht ⊢
      exact ⟨ht.1, lt_trans h ht.2⟩
  have hb' : b ∉ seen.filter (fun t => b < t) := by
    rw [Finset.mem_filter]
    simp
  have := Finset.card_le_card hsub
  rw [Finset.card_insert_of_not_mem hb'] at this
  simpa [cntGreater] using this

theorem cntGreater_mem_lt_card {seen : Finset Nat} {s : Nat} (hs : s ∈ seen) :
    cntGreater seen s < seen.card := by
  have hsub : insert s (seen.filter (fun t => s < t)) ⊆ seen := by
    intro t ht
    rcases Finset.mem_insert.mp ht with rfl | ht
    · exact hs
    · exact (Finset.mem_filter.mp ht).1
  have hs' : s ∉ seen.filter (fun t => s < t) := by
    rw [Finset.mem_filter]
    simp
  have := Finset.card_le_card hsub
  rw [Finset.card_insert_of_not_mem hs'] at this
  simpa [cntGreater] using this

theorem cntGreater_insert_self (seen : Finset Nat) (s0 : Nat) :
    cntGreater (insert s0 seen) s0 = cntGreater seen s0 := by
  rw [cntGreater, cntGreater, Finset.filter_insert]
  rw [if_neg (lt_irrefl s0)]

theorem cntGreater_insert_of_lt {seen : Finset Nat} {s s0 : Nat}
    (h : s < s0) (hs0 : s0 ∉ seen) :
    cntGreater (insert s0 seen) s = cntGreater seen s + 1 := by
  rw [cntGreater, cntGreater, Finset.filter_insert, if_pos h]
  rw [Finset.card_insert_of_not_mem]
  intro hmem
  exact hs0 (Finset.mem_filter.mp hmem).1

theorem cntGreater_insert_of_ge {seen : Finset Nat} {s s0 : Nat}
    (h : ¬ s < s0) :
    cntGreater (insert s0 seen) s = cntGreater seen s := by
  rw [cntGreater, cntGreater, Finset.filter_insert, if_neg h]

theorem cntGreater_le_insert (seen : Finset Nat) (s s0 : Nat) :
    cntGreater seen s ≤ cntGreater (insert s0 seen) s := by
  apply Finset.card_le_card
  intro t ht
  rw [Finset.mem_filter] at ht ⊢
  exact ⟨Finset.mem_insert_of_mem ht.1, ht.2⟩

/-! ## Recent-slots window (C2): invariant preservation -/

theorem length_mapAdjust (k : Nat) (f : α → α) (l : List (Nat × α)) :
    (mapAdjust k f l).length = l.length := by
  have h := congrArg List.length (mapKeys_mapAdjust k f l)
  simpa [mapKeys] using h

theorem windowInv_status {seen : Finset Nat}
    {K : List (Nat × StreamsSlotInfo)} (hinv : WindowInv seen K)
    (slot : Nat) (c : CommitmentLevel) :
    WindowInv seen
      (mapAdjust slot (fun info => { info with commitment := c }) K) := by
  obtain ⟨hwf, hlen, hchar⟩ := hinv
  refine ⟨?_, ?_, ?_⟩
  · show (mapKeys _).Sorted (· < ·)
    rw [mapKeys_mapAdjust]
    exact hwf
  · rw [length_mapAdjust]
    exact hlen
  · intro s
    rw [mapKeys_mapAdjust]
    exact hchar s

theorem windowInv_slotMsg {seen : Finset Nat}
    {K : List (Nat × StreamsSlotInfo)} (hinv : WindowInv seen K)
    (s0 : Nat) (info : StreamsSlotInfo) :
    WindowInv (insert s0 seen) (evictWindow (mapInsert s0 info K)) := by
  obtain ⟨hwf, hlen, hchar⟩ := hinv
  have hwf1 : MapWF (mapInsert s0 info K) := hwf.mapInsert s0 info
  by_cases hmem : s0 ∈ mapKeys K
  · -- the slot is already in the window: pure overwrite, no eviction
    have hs0seen : s0 ∈ seen := ((hchar s0).mp hmem).1
    have hSeq : insert s0 seen = seen := Finset.insert_eq_self.mpr hs0seen
    have hlen1 : (mapInsert s0 info K).length = K.length :=
      length_mapInsert_mem info hwf hmem
    have hle : K.length ≤ 149 := by
      rw [hlen]
      exact Nat.min_le_right _ _
    have hev : evictWindow (mapInsert s0 info K) = mapInsert s0 info K := by
      rw [evictWindow_eq_drop]
      have h0 : (mapInsert s0 info K).length - 149 = 0 := by omega
      rw [h0, List.drop_zero]
    rw [hev, hSeq]
    refine ⟨hwf1, by rw [hlen1, hlen], ?_⟩
    intro s
    rw [mem_mapKeys_mapInsert]
    constructor
    · rintro (rfl | h)
      · exact (hchar s).mp hmem
      · exact (hchar s).mp h
    · intro h
      exact Or.inr ((hchar s).mpr h)
  · by_cases hseen : s0 ∈ seen
    · -- seen before but long since evicted: it re-enters at the bottom and
      -- is immediately evicted again
      have hcnt : 149 ≤ cntGreater seen s0 := by
        by_contra hc
        push_neg at hc
        exact hmem ((hchar s0).mpr ⟨hseen, hc⟩)
      have hSeq : insert s0 seen = seen := Finset.insert_eq_self.mpr hseen
      have hcard : 150 ≤ seen.card := by
        have h1 := cntGreater_mem_lt_card hseen
        omega
      have hlenK : K.length = 149 := by
        rw [hlen, Nat.min_eq_right (by omega)]
      have hKne : K ≠ [] := by
        intro h
        rw [h] at hlenK
        simp at hlenK
      have hall : ∀ t ∈ mapKeys K, s0 < t := by
        intro t ht
        have htc : cntGreater seen t < 149 := ((hchar t).mp ht).2
        by_contra hle
        push_neg at hle
        have := @cntGreater_anti seen t s0 hle
        omega
      have hK1eq : mapInsert s0 info K = (s0, info) :: K :=
        mapInsert_of_lt_head info hKne hall
      have hlen1 : (mapInsert s0 info K).length = 150 := by
        rw [hK1eq]
        simp [hlenK]
      have hev : evictWindow (mapInsert s0 info K) = K := by
        rw [evictWindow_eq_drop, hlen1, hK1eq]
        rfl
      rw [hev, hSeq]
      exact ⟨hwf, hlen, hchar⟩
    · -- genuinely new slot
      have hs0K : s0 ∉ mapKeys K := hmem
      have hlen1 : (mapInsert s0 info K).length = K.length + 1 :=
        length_mapInsert_not_mem info hs0K
      have hcard' : (insert s0 seen).card = seen.card + 1 :=
        Finset.card_insert_of_not_mem hseen
      by_cases hsmall : K.length ≤ 148
      · -- still under the cap: no eviction, window = all seen slots
        have hcardS : seen.card = K.length := by
          rcases le_or_lt seen.card 149 with hc | hc
          · rw [Nat.min_eq_left hc] at hlen
            omega
          · rw [Nat.min_eq_right (by omega)] at hlen
            omega
        have hev : evictWindow (mapInsert s0 info K)
            = mapInsert s0 info K := by
          rw [evictWindow_eq_drop]
          have h0 : (mapInsert s0 info K).length - 149 = 0 := by omega
          rw [h0, List.drop_zero]
        rw [hev]
        refine ⟨hwf1, ?_, ?_⟩
        · rw [hlen1, hcard', Nat.min_eq_left (by omega)]
          omega
        · intro s
          rw [mem_mapKeys_mapInsert]
          constructor
          · rintro (rfl | h)
            · refine ⟨Finset.mem_insert_self _ _, ?_⟩
              have h1 := cntGreater_mem_lt_card
                (Finset.mem_insert_self s seen)
              omega
            · have hs := (hchar s).mp h
              refine ⟨Finset.mem_insert_of_mem hs.1, ?_⟩
              have h1 := cntGreater_mem_lt_card
                (Finset.mem_insert_of_mem (b := s0) hs.1)
              omega
          · rintro ⟨hsin, -⟩
            rcases Finset.mem_insert.mp hsin with rfl | hsS
            · exact Or.inl rfl
            · refine Or.inr ((hchar s).mpr ⟨hsS, ?_⟩)
              have h1 := cntGreater_mem_lt_card hsS
              omega
      · -- window full: insert, then evict the smallest key
        have hlenK : K.length = 149 := by
          have hle : K.length ≤ 149 := by
            rw [hlen]
            exact Nat.min_le_right _ _
          omega
        have hcardS : 149 ≤ seen.card := by
          by_contra hc
          push_neg at hc
          rw [Nat.min_eq_left (by omega)] at hlen
          omega
        have hlen1' : (mapInsert s0 info K).length = 150 := by omega
        have hev : evictWindow (mapInsert s0 info K)
            = (mapInsert s0 info K).drop 1 := by
          rw [evictWindow_eq_drop, hlen1']
        obtain ⟨m, T, hK1⟩ : ∃ m T, mapInsert s0 info K = m :: T := by
          cases hK1c : mapInsert s0 info K with
          | nil =>
              rw [hK1c] at hlen1'
              simp at hlen1'
          | cons m T => exact ⟨m, T, rfl⟩
        have hwfK1 : MapWF (m :: T) := hK1 ▸ hwf1
        have hheadlt : ∀ t ∈ mapKeys T, m.1 < t := hwfK1.head_lt
        have hwfT : MapWF T := hwfK1.tail
        have hTlen : T.length = 149 := by
          rw [hK1] at hlen1'
          simpa using hlen1'
        have hm_mem : m.1 ∈ mapKeys (mapInsert s0 info K) := by
          rw [hK1, mapKeys_cons]
          exact List.mem_cons_self _ _
        have hkeysSub : ∀ s ∈ mapKeys (mapInsert s0 info K),
            s ∈ insert s0 seen := by
          intro s hs
          rcases (mem_mapKeys_mapInsert info K).mp hs with rfl | hsK
          · exact Finset.mem_insert_self _ _
          · exact Finset.mem_insert_of_mem ((hchar s).mp hsK).1
        have hcnt_m : 149 ≤ cntGreater (insert s0 seen) m.1 := by
          have hfin : (mapKeys T).toFinset
              ⊆ (insert s0 seen).filter (fun t => m.1 < t) := by
            intro t ht
            rw [List.mem_toFinset] at ht
            refine Finset.mem_filter.mpr ⟨?_, hheadlt t ht⟩
            apply hkeysSub
            rw [hK1, mapKeys_cons]
            exact List.mem_cons_of_mem _ ht
          have hndT : (mapKeys T).Nodup := hwfT.nodupKeys
          have hcardT : (mapKeys T).toFinset.card = 149 := by
            rw [List.toFinset_card_of_nodup hndT]
            simp [mapKeys, hTlen]
          calc 149 = (mapKeys T).toFinset.card := hcardT.symm
            _ ≤ ((insert s0 seen).filter (fun t => m.1 < t)).card :=
                Finset.card_le_card hfin
            _ = cntGreater (insert s0 seen) m.1 := rfl
        have hsplit : ∀ s, s ∈ mapKeys T
            ↔ (s ∈ mapKeys (mapInsert s0 info K) ∧ s ≠ m.1) := by
          intro s
          rw [hK1, mapKeys_cons, List.mem_cons]
          constructor
          · intro h
            refine ⟨Or.inr h, ?_⟩
            intro he
            subst he
            exact absurd (hheadlt _ h) (lt_irrefl _)
          · rintro ⟨h | h, hne⟩
            · exact absurd h hne
            · exact h
        rw [hev, hK1]
        show WindowInv (insert s0 seen) T
        refine ⟨hwfT, ?_, ?_⟩
        · rw [hTlen, Nat.min_eq_right (by omega)]
        · intro s
          constructor
          · intro hsT
            have hs1 : s ∈ mapKeys (mapInsert s0 info K) :=
              ((hsplit s).mp hsT).1
            refine ⟨hkeysSub s hs1, ?_⟩
            rcases (mem_mapKeys_mapInsert info K).mp hs1 with rfl | hsK
            · have hmlt : m.1 < s := hheadlt s hsT
              have hmK : m.1 ∈ mapKeys K := by
                rcases (mem_mapKeys_mapInsert info K).mp hm_mem with he | h
                · omega
                · exact h
              have hcm : cntGreater seen m.1 < 149 := ((hchar m.1).mp hmK).2
              have h1 := cntGreater_insert_self seen s
              have h2 : cntGreater seen s ≤ cntGreater seen m.1 :=
                cntGreater_anti (le_of_lt hmlt)
              omega
            · have hcs : cntGreater seen s < 149 := ((hchar s).mp hsK).2
              by_cases hlt : s < s0
              · rw [cntGreater_insert_of_lt hlt hseen]
                rcases (mem_mapKeys_mapInsert info K).mp hm_mem with hms0 | hmK
                · have := hheadlt s hsT
                  omega
                · have hcm : cntGreater seen m.1 < 149 :=
                    ((hchar m.1).mp hmK).2
                  have hmlt : m.1 < s := hheadlt s hsT
                  have hsseen : s ∈ seen := ((hchar s).mp hsK).1
                  have := cntGreater_strict_anti hsseen hmlt
                  omega
              · rw [cntGreater_insert_of_ge hlt]
                omega
          · rintro ⟨hsS', hscnt⟩
            have hs1 : s ∈ mapKeys (mapInsert s0 info K) := by
              rcases Finset.mem_insert.mp hsS' with rfl | hsS
              · exact (mem_mapKeys_mapInsert info K).mpr (Or.inl rfl)
              · have h2 := cntGreater_le_insert seen s s0
                exact (mem_mapKeys_mapInsert info K).mpr
                  (Or.inr ((hchar s).mpr ⟨hsS, by omega⟩))
            have hne : s ≠ m.1 := by
              intro he
              subst he
              omega
            exact (hsplit s).mpr ⟨hs1, hne⟩

theorem windowInv_run :
    ∀ (msgs : List GeyserMessage) (st : ReducerState) (seen : Finset Nat),
      WindowInv seen st.slots_info →
      WindowInv (seenFrom seen msgs)
        (msgs.foldl applyGeyserMessage st).slots_info := by
  intro msgs
  induction msgs with
  | nil =>
      intro st seen h
      exact h
  | cons m rest ih =>
      intro st seen h
      cases m with
      | status slot c =>
          rw [List.foldl_cons, seenFrom]
          apply ih
          exact windowInv_status h slot c
      | slotMsg slot hash time height ps ph txs =>
          rw [List.foldl_cons, seenFrom]
          apply ih
          exact windowInv_slotMsg h slot
            (StreamsSlotInfo.new slot hash time height txs)

theorem seenFrom_eq_union :
    ∀ (msgs : List GeyserMessage) (seen : Finset Nat),
      seenFrom seen msgs = seen ∪ seenSlots msgs := by
  intro msgs
  induction msgs with
  | nil =>
      intro seen
      simp [seenFrom, seenSlots]
  | cons m rest ih =>
      intro seen
      cases m with
      | status slot c =>
          rw [seenFrom, seenSlots, ih]
      | slotMsg slot hash time height ps ph txs =>
          rw [seenFrom, seenSlots, ih]
          ext t
          simp only [Finset.mem_union, Finset.mem_insert]
          tauto

set_option maxRecDepth 100000 in
/-- C2 counterexample: after ingesting 150 distinct slots 1..150, slot 1 is
among the 150 largest-numbered slots seen, yet it is not in the window —
the eviction loop `while len >= 150 pop_first` leaves at most 149 entries
(rpc_solana.rs lines 555-557), so the window never holds 150 slots. -/
theorem claim_C2_counterexample :
    1 ∈ seenSlots ((List.range 150).map
        (fun i => GeyserMessage.slotMsg (i + 1) 0 0 0 0 0 []))
    ∧ cntGreater
        (seenSlots ((List.range 150).map
          (fun i => GeyserMessage.slotMsg (i + 1) 0 0 0 0 0 []))) 1 = 149
    ∧ 1 ∉ mapKeys (applyGeyserMessages ((List.range 150).map
        (fun i => GeyserMessage.slotMsg (i + 1) 0 0 0 0 0 []))).slots_info := by
  refine ⟨by decide, by decide, by decide⟩

/-- C2 (amended): after any sequence of ingest events the recent-slots
window holds at most 149 entries (the eviction loop `while len >= 150`
pops until 149 remain, lowest slot first), its size is
`min (number of distinct slots seen) 149`, and it contains exactly the
seen slots with fewer than 149 larger seen slots — i.e. the
`min (seen) 149` largest-numbered slots seen. -/
theorem claim_C2_recent_window (msgs : List GeyserMessage) :
    (applyGeyserMessages msgs).slots_info.length ≤ 149
    ∧ (applyGeyserMessages msgs).slots_info.length
        = min (seenSlots msgs).card 149
    ∧ ∀ s, s ∈ mapKeys (applyGeyserMessages msgs).slots_info
        ↔ s ∈ seenSlots msgs ∧ cntGreater (seenSlots msgs) s < 149 := by
  have hbase : WindowInv ∅ (({} : ReducerState).slots_info) := by
    refine ⟨?_, ?_, ?_⟩
    · exact List.sorted_nil
    · simp
    · intro s
      simp [mapKeys]
  have h := windowInv_run msgs {} ∅ hbase
  rw [seenFrom_eq_union, Finset.empty_union] at h
  obtain ⟨hwf, hlen, hchar⟩ := h
  exact ⟨le_trans (le_of_eq hlen) (Nat.min_le_right _ _), hlen, hchar⟩

end Solfees
